import Mathlib

/-!
The Dart barrel file generator of `src/extension.js`.

A shallow embedding of the extension's logic.  JavaScript strings are sequences of
UTF-16 code units; they are modelled as lists of natural numbers, one per code unit, so
that relational comparison (`a < b`), `split`, `join`, `endsWith`, `includes`,
`lastIndexOf` and `substring` act on code units exactly as in the source.
-/

namespace DartBarrel

/-! ## JavaScript strings -/

/-- One UTF-16 code unit. -/
abbrev CodeUnit := Nat

/-- A JavaScript string value: its sequence of code units. -/
abbrev JSString := List CodeUnit

/-- Code units of a literal (the literals of the source are ASCII). -/
def str (s : String) : JSString := s.toList.map Char.toNat

/-- The code unit of `/`. -/
def slash : CodeUnit := 47

/-- The code unit of `\`. -/
def backslash : CodeUnit := 92

/-- `s.endsWith(t)`. -/
def endsWith (s t : JSString) : Bool := t.isSuffixOf s

/-- `s.includes(t)`: `t` occurs in `s` at some position. -/
def includes : JSString → JSString → Bool
  | [], t => t.isPrefixOf []
  | c :: cs, t => t.isPrefixOf (c :: cs) || includes cs t

/-- Scan of `lastIndexOf`: `i` is the current position, `best` the last match so far. -/
def lastIndexOfGo (t : JSString) : JSString → Nat → Int → Int
  | [], i, best => if t.isPrefixOf [] then (i : Int) else best
  | c :: cs, i, best =>
    lastIndexOfGo t cs (i + 1) (if t.isPrefixOf (c :: cs) then (i : Int) else best)

/-- `s.lastIndexOf(t)`: the last position at which `t` occurs, `-1` when it does not. -/
def lastIndexOf (s t : JSString) : Int := lastIndexOfGo t s 0 (-1)

/-- `s.substring(start)`: negative starts are clamped to `0`. -/
def substring (s : JSString) (start : Int) : JSString := s.drop start.toNat

/-- Scan of `split` for a non-empty separator.  `skip` counts the code units of a
separator occurrence that are still to be passed over, `acc` is the part being built. -/
def splitGo (sep : JSString) : Nat → JSString → JSString → List JSString
  | _, acc, [] => [acc]
  | 0, acc, c :: cs =>
    if sep.isPrefixOf (c :: cs) then acc :: splitGo sep (sep.length - 1) [] cs
    else splitGo sep 0 (acc ++ [c]) cs
  | k + 1, acc, _ :: cs => splitGo sep k acc cs

/-- `s.split(sep)`: with an empty separator the string is cut into its code units,
otherwise it is cut at each successive occurrence of `sep`, scanning left to right. -/
def split (s sep : JSString) : List JSString :=
  if sep = [] then s.map (fun c => [c]) else splitGo sep 0 [] s

/-- `parts.join(sep)`. -/
def join (sep : JSString) : List JSString → JSString
  | [] => []
  | [a] => a
  | a :: b :: l => a ++ sep ++ join sep (b :: l)

/-- The relational comparison `a < b` on strings: code unit by code unit, a proper prefix
being smaller. -/
def jsLt : JSString → JSString → Bool
  | [], [] => false
  | [], _ :: _ => true
  | _ :: _, [] => false
  | a :: as, b :: bs => if a < b then true else if b < a then false else jsLt as bs

/-! ## Paths -/

/-- The two values `path.sep` can take. -/
inductive Platform
  | posix
  | win32
  deriving DecidableEq, Repr

/-- `path.sep`. -/
def Platform.sep : Platform → JSString
  | .posix => [slash]
  | .win32 => [backslash]

/-- `path.posix.sep`. -/
def posixSep : JSString := [slash]

/-- `toPosixPath(pathLike)`. -/
def toPosixPath (pf : Platform) (pathLike : JSString) : JSString :=
  join posixSep (split pathLike pf.sep)

/-- `toPlatformSpecificPath(posixPath)`. -/
def toPlatformSpecificPath (pf : Platform) (posixPath : JSString) : JSString :=
  join pf.sep (split posixPath posixSep)

/-! ## Configuration and the eligibility filter -/

/-- The two settings under the `dartBarrelFileGenerator` key, as truth values. -/
structure Config where
  excludeFreezed : Bool
  excludeGenerated : Bool
  deriving DecidableEq, Repr

/-- `CONFIGURATIONS.values`. -/
inductive ConfigValue
  | EXCLUDE_FREEZED
  | EXCLUDE_GENERATED
  deriving DecidableEq, Repr

/-- `getConfig(value)`, read as a truth value. -/
def getConfig (cfg : Config) : ConfigValue → Bool
  | .EXCLUDE_FREEZED => cfg.excludeFreezed
  | .EXCLUDE_GENERATED => cfg.excludeGenerated

/-- `shouldExport(posixPath, dirName)`. -/
def shouldExport (cfg : Config) (posixPath dirName : JSString) : Bool :=
  if endsWith posixPath (str ".dart") && !endsWith posixPath (dirName ++ str ".dart") then
    if endsWith posixPath (str ".freezed.dart") then
      !getConfig cfg .EXCLUDE_FREEZED
    else if endsWith posixPath (str ".g.dart") then
      !getConfig cfg .EXCLUDE_GENERATED
    else true
  else false

/-- The base name the source takes of a path:
`posixPath.substring(posixPath.lastIndexOf('/') + 1)`. -/
def baseName (posixPath : JSString) : JSString :=
  substring posixPath (lastIndexOf posixPath (str "/") + 1)

/-! ## The host: workspace search, file system, dialogs -/

/-- What `lstatSync` reports about an existing path. -/
inductive Stat
  | file
  | directory
  | other
  deriving DecidableEq, Repr

/-- `stats.isFile()`. -/
def Stat.isFile : Stat → Bool
  | .file => true
  | _ => false

/-- `stats.isDirectory()`. -/
def Stat.isDirectory : Stat → Bool
  | .directory => true
  | _ => false

/-- The two fields of a `vscode.Uri` the extension reads. -/
structure Uri where
  path : JSString
  fsPath : JSString
  deriving DecidableEq, Repr

/-- The external collaborators of the extension, over a host state `σ`:
`path.sep`, `vscode.workspace.findFiles` (the `fsPath` of every match, in order),
`lstatSync` (`none` when it throws), `writeFile` (`none` when the callback receives an
error), `vscode.window.showOpenDialog` (`none` when dismissed) and the `fsPath` of each
entry of `vscode.workspace.workspaceFolders`. -/
structure Host (σ : Type) where
  platform : Platform
  findFiles : σ → JSString → List JSString
  lstatSync : σ → JSString → Option Stat
  writeFile : σ → JSString → JSString → Option σ
  showOpenDialog : σ → Option (List Uri)
  workspaceFolders : σ → List JSString

/-! ## Sorting and composing the export lines -/

/-- An element of the `files` array: a string, or `undefined` (`none`). -/
abbrev JSVal := Option JSString

/-- String conversion inside a template literal. -/
def toStringVal : JSVal → JSString
  | some s => s
  | none => str "undefined"

/-- The comparator handed to `sort`: `(a, b) => (a < b ? -1 : a > b ? 1 : 0)`. -/
def compareFn (a b : JSString) : Int :=
  if jsLt a b then -1 else if jsLt b a then 1 else 0

/-- The comparison `Array.prototype.sort` applies to two elements: `undefined` goes last
and the comparator is consulted for defined elements only. -/
def sortCompare (comparefn : JSString → JSString → Int) : JSVal → JSVal → Int
  | none, none => 0
  | none, some _ => 1
  | some _, none => -1
  | some a, some b => comparefn a b

/-- Insertion of `x` in front of the first element it does not exceed. -/
def insertBy {α : Type} (cmp : α → α → Int) (x : α) : List α → List α
  | [] => [x]
  | y :: ys => if cmp x y ≤ 0 then x :: y :: ys else y :: insertBy cmp x ys

/-- A stable sort by a comparator (insertion sort; `Array.prototype.sort` is stable, so
for a consistent comparator every implementation yields this list). -/
def stableSort {α : Type} (cmp : α → α → Int) : List α → List α
  | [] => []
  | x :: xs => insertBy cmp x (stableSort cmp xs)

/-- `files.sort(comparefn)`. -/
def arraySort (comparefn : JSString → JSString → Int) (files : List JSVal) : List JSVal :=
  stableSort (sortCompare comparefn) files

/-- One pass of the loop that builds `exports`. -/
def appendExport (exports : JSString) (t : JSVal) : JSString :=
  exports ++ str "export '" ++ toStringVal t ++ str "';\n"

/-- The loop `for (const t of files) exports = ...` started from the empty string. -/
def composeExports (files : List JSVal) : JSString :=
  files.foldl appendExport []

/-! ## `generate` -/

/-- The contents of `files` and of the set `dirs` (in insertion order) during the scan. -/
structure Scan where
  files : List JSVal
  dirs : List JSString
  deriving DecidableEq, Repr

/-- `dirs.add(d)` on an insertion-ordered set. -/
def setAdd (dirs : List JSString) (d : JSString) : List JSString :=
  if d ∈ dirs then dirs else dirs ++ [d]

/-- The folder name the recursive branch extracts from a file path:
`posixPath.split(targetPath)[1].split('/')[1]`, when both arrays are long enough. -/
def folderNameOf (targetPath posixPath : JSString) : Option JSString :=
  match split posixPath targetPath with
  | _ :: second :: _ =>
    match split second (str "/") with
    | _ :: folderName :: _ => some folderName
    | _ => none
  | _ => none

/-- One iteration of `for (const t of wksFiles)`; `none` when `lstatSync` throws. -/
def scanStep {σ : Type} (h : Host σ) (cfg : Config) (st : σ) (targetPath : JSString)
    (splitDir : List JSString) (dirName : JSString) (recursive : Bool)
    (acc : Scan) (t : JSString) : Option Scan :=
  let posixPath := toPosixPath h.platform t
  match h.lstatSync st posixPath with
  | none => none
  | some stat =>
    if stat.isFile then
      if shouldExport cfg posixPath dirName then
        if ((split posixPath (str "/")).length : Int) - (splitDir.length : Int) = 1 then
          some { acc with
            files := acc.files ++
              [some (substring posixPath (lastIndexOf posixPath (str "/") + 1))] }
        else if recursive then
          match folderNameOf targetPath posixPath with
          | some folderName =>
            some { acc with dirs := setAdd acc.dirs (targetPath ++ (str "/" ++ folderName)) }
          | none => some acc
        else some acc
      else some acc
    else some acc

/-- The loop `for (const t of wksFiles)`. -/
def scanLoop {σ : Type} (h : Host σ) (cfg : Config) (st : σ) (targetPath : JSString)
    (splitDir : List JSString) (dirName : JSString) (recursive : Bool) :
    List JSString → Scan → Option Scan
  | [], acc => some acc
  | t :: ts, acc =>
    match scanStep h cfg st targetPath splitDir dirName recursive acc t with
    | none => none
    | some acc1 => scanLoop h cfg st targetPath splitDir dirName recursive ts acc1

/-- The error a promise rejects with: `throw Error(message)`, a `TypeError` from using
`undefined`, or an exception thrown by `lstatSync`. -/
inductive Failure
  | error (message : JSString)
  | typeError
  | host
  deriving DecidableEq, Repr

/-- How an awaited promise ends: it resolves with a value, it rejects with an error, or
it never settles.  `cutOff` is not a behaviour of the code: it marks a run that needs
more nested calls than the depth bound given to `generate` allows. -/
inductive Outcome (α : Type)
  | resolved (value : α)
  | rejected (reason : Failure)
  | pending
  | cutOff
  deriving DecidableEq

/-- The value a promise resolved with, if it did. -/
def Outcome.value? {α : Type} : Outcome α → Option α
  | .resolved a => some a
  | _ => none

/-- What a resolved call of `generate` leaves behind: the host state after its writes and
the value the promise resolves to, together with two observations of the run, the
contents of `files` just before sorting and the text handed to `writeFile`. -/
structure Generated (σ : Type) where
  state : σ
  path : JSString
  files : List JSVal
  exports : JSString
  deriving DecidableEq

/-- The entry pushed for a nested barrel file:
`toPosixPath(returned).split(targetPath + '/')[1]`. -/
def nestedEntry (pf : Platform) (targetPath returned : JSString) : JSVal :=
  (split (toPosixPath pf returned) (targetPath ++ str "/")).get? 1

/-- The loop `for (const d of dirs)`, each nested call awaited in turn; `gen` is the
recursive call `generate(d, true, appendedDirName)`.  A nested call that rejects makes
the `await` throw, and one that never settles is awaited for ever. -/
def nestedLoop {σ : Type} (gen : σ → JSString → Outcome (Generated σ)) (pf : Platform)
    (targetPath : JSString) : List JSString → σ → List JSVal → Outcome (σ × List JSVal)
  | [], st, files => .resolved (st, files)
  | d :: ds, st, files =>
    match gen st d with
    | .resolved r =>
      nestedLoop gen pf targetPath ds r.state (files ++ [nestedEntry pf targetPath r.path])
    | .rejected e => .rejected e
    | .pending => .pending
    | .cutOff => .cutOff

/-- The search pattern handed to `findFiles`. -/
def searchPattern (pf : Platform) (appendedDirName : JSString) : JSString :=
  str "**" ++ pf.sep ++ appendedDirName ++ pf.sep ++ str "**"

/-- The name under which the directory is searched: `appendToDir` is `null` (`none`) or
a string, and the empty string is falsy. -/
def appendedDirNameOf (pf : Platform) (appendToDir : Option JSString) (dirName : JSString) :
    JSString :=
  match appendToDir with
  | some a => if a ≠ [] then a ++ pf.sep ++ dirName else dirName
  | none => dirName

/-- `generate(targetPath, recursive, appendToDir)`.  The first argument bounds the depth
of nested calls.  The promise rejects when `lstatSync` throws, and it never settles when
the write fails: the `writeFile` callback then throws instead of calling `resolve`. -/
def generate {σ : Type} (h : Host σ) (cfg : Config) :
    Nat → σ → JSString → Bool → Option JSString → Outcome (Generated σ)
  | 0, _, _, _, _ => .cutOff
  | fuel + 1, st, targetPath, recursive, appendToDir =>
    let splitDir := split targetPath (str "/")
    -- `split` with a non-empty separator never yields an empty array
    let dirName := splitDir.getLastD []
    let appendedDirName := appendedDirNameOf h.platform appendToDir dirName
    let wksFiles := h.findFiles st (searchPattern h.platform appendedDirName)
    match scanLoop h cfg st targetPath splitDir dirName recursive wksFiles ⟨[], []⟩ with
    | none => .rejected .host
    | some scan =>
      let nested :=
        if recursive && decide (scan.dirs.length > 0) then
          nestedLoop (fun s d => generate h cfg fuel s d true (some appendedDirName))
            h.platform targetPath scan.dirs st scan.files
        else .resolved (st, scan.files)
      match nested with
      | .rejected e => .rejected e
      | .pending => .pending
      | .cutOff => .cutOff
      | .resolved (st1, files) =>
        let exports := composeExports (arraySort compareFn files)
        let barrelFile := targetPath ++ str "/" ++ dirName ++ str ".dart"
        match h.writeFile st1 (toPlatformSpecificPath h.platform barrelFile) exports with
        | none => .pending
        | some st2 =>
          .resolved ⟨st2, toPlatformSpecificPath h.platform barrelFile, files, exports⟩

/-! ## Input resolution and the two commands -/

/-- `getFolderNameFromInput()`: `undefined` (`none`) when the dialog is dismissed or
returns nothing, else the `path` of the first selected entry. -/
def getFolderNameFromInput {σ : Type} (h : Host σ) (st : σ) : Option JSString :=
  match h.showOpenDialog st with
  | none => none
  | some [] => none
  | some (u :: _) => some u.path

/-- `toPosixPath` applied to a value that may be `undefined`: `undefined.split` throws. -/
def toPosixPathOf (pf : Platform) : Option JSString → Except Failure JSString
  | none => .error .typeError
  | some p => .ok (toPosixPath pf p)

/-- `if (!lstatSync(p).isDirectory()) throw Error('Select a directory!')`. -/
def requireDirectory {σ : Type} (h : Host σ) (st : σ) (p : JSString) : Except Failure Unit :=
  match h.lstatSync st p with
  | none => .error .host
  | some stat =>
    if !stat.isDirectory then .error (.error (str "Select a directory!")) else .ok ()

/-- The target directory `validateAndGenerate` settles on before it looks at the
workspace: the dialog's answer or the selection, converted and checked to be a
directory. -/
def resolveTarget {σ : Type} (h : Host σ) (st : σ) (uri : Option Uri) :
    Except Failure JSString :=
  match uri with
  | none => do
    let targetDir := getFolderNameFromInput h st
    let targetDir ← toPosixPathOf h.platform targetDir
    requireDirectory h st targetDir
    pure targetDir
  | some u => do
    requireDirectory h st (toPosixPath h.platform u.fsPath)
    pure (toPosixPath h.platform u.fsPath)

/-- `validateAndGenerate(uri, recursive)`; `uri` is `none` when the command is invoked
without a selection.  Every `throw` rejects the promise; otherwise the promise is the one
`generate` returns. -/
def validateAndGenerate {σ : Type} (h : Host σ) (cfg : Config) (fuel : Nat) (st : σ)
    (uri : Option Uri) (recursive : Bool) : Outcome (Generated σ) :=
  match resolveTarget h st uri with
  | .error e => .rejected e
  | .ok targetDir =>
    match h.workspaceFolders st with
    | [] => .rejected .typeError
    | folder :: _ =>
      let currDir := toPosixPath h.platform folder
      if !includes targetDir currDir then
        .rejected (.error (str "Select a folder from the workspace"))
      else generate h cfg fuel st targetDir recursive none

/-- What the user is shown at the end of a command. -/
inductive Notice
  | information (message : JSString) (item : JSString)
  | error (message : JSString) (reason : Failure)
  deriving DecidableEq, Repr

/-- `generateCurrent(uri)`: the information notice once `validateAndGenerate` resolves,
the error notice when it rejects, and no notice at all while it stays pending. -/
def generateCurrent {σ : Type} (h : Host σ) (cfg : Config) (fuel : Nat) (st : σ)
    (uri : Option Uri) : Outcome Notice :=
  match validateAndGenerate h cfg fuel st uri false with
  | .resolved r => .resolved (.information (str "GDBF: Generated file!") r.path)
  | .rejected e => .resolved (.error (str "GDBF: Error on generating the file") e)
  | .pending => .pending
  | .cutOff => .cutOff

/-- `generateCurrentAndNested(uri)`. -/
def generateCurrentAndNested {σ : Type} (h : Host σ) (cfg : Config) (fuel : Nat) (st : σ)
    (uri : Option Uri) : Outcome Notice :=
  match validateAndGenerate h cfg fuel st uri true with
  | .resolved r => .resolved (.information (str "GDBF: Generated files!") r.path)
  | .rejected e => .resolved (.error (str "GDBF: Error on generating the file") e)
  | .pending => .pending
  | .cutOff => .cutOff

/-! ## An in-memory host for concrete runs -/

/-- A POSIX file system with one open workspace: the workspace folders, the directories
and the regular files (path and content), and the answer the folder dialog will give. -/
structure FileSystem where
  workspaceFolders : List JSString
  directories : List JSString
  files : List (JSString × JSString)
  dialog : Option (List Uri)
  deriving DecidableEq, Repr

/-- The path of `path` relative to the folder `root`, when it lies below it. -/
def relativeTo (root path : JSString) : Option JSString :=
  if (root ++ [slash]).isPrefixOf path then some (path.drop (root.length + 1)) else none

/-- Matching of a workspace-relative path against a pattern of the shape
`**/<segments>/**`, the only shape `generate` builds: the segments must occur
consecutively in the path and be followed by at least one more segment. -/
def matchesPattern (pattern rel : JSString) : Bool :=
  match split pattern [slash] with
  | first :: rest =>
    first == str "**" && rest.getLast? == some (str "**") && !rest.dropLast.isEmpty &&
      (split rel [slash]).tails.any
        (fun t => rest.dropLast.isPrefixOf t && decide (rest.dropLast.length < t.length))
  | [] => false

/-- The files of the first workspace folder that match the pattern. -/
def FileSystem.findFiles (fs : FileSystem) (pattern : JSString) : List JSString :=
  match fs.workspaceFolders with
  | [] => []
  | root :: _ =>
    (fs.files.map Prod.fst).filter fun p =>
      match relativeTo root p with
      | some rel => matchesPattern pattern rel
      | none => false

/-- The kind of the entry at a path, `none` when nothing is there. -/
def FileSystem.lstat (fs : FileSystem) (p : JSString) : Option Stat :=
  if (fs.files.map Prod.fst).contains p then some .file
  else if fs.directories.contains p then some .directory
  else none

/-- The directory part of a path: the text before its last `/`. -/
def parentOf (p : JSString) : JSString := p.take (lastIndexOf p (str "/")).toNat

/-- Writing a file: its directory must exist and the path must not be a directory; an
existing file is overwritten. -/
def FileSystem.write (fs : FileSystem) (p content : JSString) : Option FileSystem :=
  if fs.directories.contains (parentOf p) && !fs.directories.contains p then
    some { fs with
      files :=
        if (fs.files.map Prod.fst).contains p then
          fs.files.map fun f => if f.1 == p then (p, content) else f
        else fs.files ++ [(p, content)] }
  else none

/-- The content of the file at a path. -/
def FileSystem.read (fs : FileSystem) (p : JSString) : Option JSString :=
  (fs.files.find? fun f => f.1 == p).map Prod.snd

/-- The in-memory host. -/
def memHost : Host FileSystem where
  platform := .posix
  findFiles := FileSystem.findFiles
  lstatSync := FileSystem.lstat
  writeFile := FileSystem.write
  showOpenDialog := fun fs => fs.dialog
  workspaceFolders := fun fs => fs.workspaceFolders

/-! ## Auxiliary definitions for the statements -/

/-- Replacement of every code unit `c` by `d`. -/
def replaceUnit (c d : CodeUnit) (s : JSString) : JSString :=
  s.map fun x => if x = c then d else x

/-- The line written for one entry. -/
def exportLine (e : JSString) : JSString := str "export '" ++ e ++ str "';\n"

/-- The barrel file `generate` writes for a directory: `${targetPath}/${dirName}.dart`. -/
def barrelFileOf (targetPath : JSString) : JSString :=
  targetPath ++ str "/" ++ (split targetPath (str "/")).getLastD [] ++ str ".dart"

/-- A file or folder name: free of `/` and, on Windows, of `\`. -/
def IsName (pf : Platform) (x : JSString) : Prop :=
  slash ∉ x ∧ (pf = .win32 → backslash ∉ x)

instance (pf : Platform) (x : JSString) : Decidable (IsName pf x) := by
  unfold IsName
  infer_instance

/-- The entry one iteration of the scan pushes onto `files`, if any. -/
def scanEntry {σ : Type} (h : Host σ) (cfg : Config) (st : σ) (splitDir : List JSString)
    (dirName : JSString) (t : JSString) : Option JSVal :=
  if h.lstatSync st (toPosixPath h.platform t) = some .file ∧
      shouldExport cfg (toPosixPath h.platform t) dirName = true ∧
      ((split (toPosixPath h.platform t) (str "/")).length : Int) - (splitDir.length : Int) = 1
  then some (some (baseName (toPosixPath h.platform t)))
  else none

/-- The directory one iteration of the scan adds to `dirs`, if any. -/
def scanDir {σ : Type} (h : Host σ) (cfg : Config) (st : σ) (targetPath : JSString)
    (splitDir : List JSString) (dirName : JSString) (recursive : Bool) (t : JSString) :
    Option JSString :=
  if h.lstatSync st (toPosixPath h.platform t) = some .file ∧
      shouldExport cfg (toPosixPath h.platform t) dirName = true ∧
      ¬ ((split (toPosixPath h.platform t) (str "/")).length : Int) -
          (splitDir.length : Int) = 1 ∧
      recursive = true
  then (folderNameOf targetPath (toPosixPath h.platform t)).map
    fun f => targetPath ++ (str "/" ++ f)
  else none

/-- Whether an entry survives the exclusion flags of a configuration. -/
def keptBy (cfg : Config) (v : JSVal) : Bool :=
  !(cfg.excludeFreezed && endsWith (toStringVal v) (str ".freezed.dart")) &&
    !(cfg.excludeGenerated && endsWith (toStringVal v) (str ".g.dart"))

/-! ## Concrete workspaces -/

/-- A workspace `/w` holding `/w/root/x.dart` and `/w/root/sub/y.dart`. -/
def compositionFS : FileSystem where
  workspaceFolders := [str "/w"]
  directories := [str "/w", str "/w/root", str "/w/root/sub"]
  files := [(str "/w/root/x.dart", []), (str "/w/root/sub/y.dart", [])]
  dialog := none

/-- What the recursive run on `/w/root` in `compositionFS` resolves to. -/
def compositionResult : Generated FileSystem where
  state :=
    { compositionFS with
      files :=
        [(str "/w/root/x.dart", []), (str "/w/root/sub/y.dart", []),
          (str "/w/root/sub/sub.dart", str "export 'y.dart';\n"),
          (str "/w/root/root.dart", str "export 'sub/sub.dart';\nexport 'x.dart';\n")] }
  path := str "/w/root/root.dart"
  files := [some (str "x.dart"), some (str "sub/sub.dart")]
  exports := str "export 'sub/sub.dart';\nexport 'x.dart';\n"

/-- A workspace `/w` in which `/w/root/s` holds nothing but its own barrel file, left by
an earlier run. -/
def staleBarrelFS : FileSystem where
  workspaceFolders := [str "/w"]
  directories := [str "/w", str "/w/root", str "/w/root/s"]
  files := [(str "/w/root/x.dart", []), (str "/w/root/s/s.dart", [])]
  dialog := none

/-- A workspace `/w` with two unrelated directories named `lib`. -/
def sameLeafFS : FileSystem where
  workspaceFolders := [str "/w"]
  directories := [str "/w", str "/w/a", str "/w/a/lib", str "/w/b", str "/w/b/lib"]
  files := [(str "/w/a/lib/x.dart", []), (str "/w/b/lib/z.dart", [])]
  dialog := none

/-- A workspace `/home/u/proj` next to the directories `/home/u/proj2` and
`/x/home/u/proj`, which lie outside it. -/
def outsideFS : FileSystem where
  workspaceFolders := [str "/home/u/proj"]
  directories :=
    [str "/home", str "/home/u", str "/home/u/proj", str "/home/u/proj/lib",
      str "/home/u/proj2", str "/x", str "/x/home", str "/x/home/u", str "/x/home/u/proj"]
  files := [(str "/home/u/proj/lib/a.dart", [])]
  dialog := none

/-- A workspace `/w` whose directory `models` holds `user.dart` and `user_models.dart`. -/
def modelsFS : FileSystem where
  workspaceFolders := [str "/w"]
  directories := [str "/w", str "/w/models"]
  files := [(str "/w/models/user.dart", []), (str "/w/models/user_models.dart", [])]
  dialog := none

/-- A workspace `/w` in which `/w/lib/src` holds the single file `lib.dart`. -/
def shadowedFS : FileSystem where
  workspaceFolders := [str "/w"]
  directories := [str "/w", str "/w/lib", str "/w/lib/src"]
  files := [(str "/w/lib/x.dart", []), (str "/w/lib/src/lib.dart", [])]
  dialog := none

/-- A workspace `/a` in which the path of the directory `/a/b` recurs at the start of
`/a/bx.dart`, the text that follows it in `/a/b/a/bx.dart`. -/
def recurringFS : FileSystem where
  workspaceFolders := [str "/a"]
  directories := [str "/a", str "/a/b", str "/a/b/a"]
  files := [(str "/a/b/x.dart", []), (str "/a/b/a/bx.dart", [])]
  dialog := none

/-- The workspace of `compositionFS` in which `/w/root/root.dart` is a directory, so that
writing the barrel file of `/w/root` fails. -/
def blockedFS : FileSystem where
  workspaceFolders := [str "/w"]
  directories := [str "/w", str "/w/root", str "/w/root/sub", str "/w/root/root.dart"]
  files := [(str "/w/root/x.dart", []), (str "/w/root/sub/y.dart", [])]
  dialog := none

/-! ## Facts about the string primitives -/

theorem splitGo_ne_nil (sep : JSString) (k : Nat) (acc s : JSString) :
    splitGo sep k acc s ≠ [] := by
  induction s generalizing k acc with
  | nil => simp [splitGo]
  | cons c cs ih =>
    cases k with
    | zero =>
      simp only [splitGo]
      split
      · simp
      · exact ih _ _
    | succ k => simpa [splitGo] using ih k acc

theorem join_cons_of_ne_nil (sep a : JSString) (l : List JSString) (hl : l ≠ []) :
    join sep (a :: l) = a ++ sep ++ join sep l := by
  cases l with
  | nil => exact absurd rfl hl
  | cons b l => rfl

theorem replaceUnit_self (c : CodeUnit) (s : JSString) : replaceUnit c c s = s := by
  unfold replaceUnit
  conv_rhs => rw [← List.map_id s]
  apply List.map_congr_left
  intro x _
  by_cases h : x = c <;> simp [h]

theorem join_splitGo_single (c d : CodeUnit) (acc s : JSString) :
    join [d] (splitGo [c] 0 acc s) = acc ++ replaceUnit c d s := by
  induction s generalizing acc with
  | nil => simp [splitGo, join, replaceUnit]
  | cons x xs ih =>
    by_cases hx : x = c
    · subst hx
      have : splitGo [x] 0 acc (x :: xs) = acc :: splitGo [x] 0 [] xs := by
        simp [splitGo, List.isPrefixOf]
      rw [this, join_cons_of_ne_nil _ _ _ (splitGo_ne_nil _ _ _ _), ih]
      simp [replaceUnit]
    · have hx2 : ¬ c = x := fun e => hx e.symm
      have : splitGo [c] 0 acc (x :: xs) = splitGo [c] 0 (acc ++ [x]) xs := by
        simp [splitGo, List.isPrefixOf, hx2]
      rw [this, ih]
      simp [replaceUnit, hx]

theorem join_split_single (c d : CodeUnit) (s : JSString) :
    join [d] (split s [c]) = replaceUnit c d s := by
  simp [split, join_splitGo_single]

theorem toPosixPath_posix (s : JSString) : toPosixPath .posix s = s := by
  simp [toPosixPath, posixSep, Platform.sep, join_split_single, replaceUnit_self]

theorem toPlatformSpecificPath_posix (s : JSString) : toPlatformSpecificPath .posix s = s := by
  simp [toPlatformSpecificPath, posixSep, Platform.sep, join_split_single, replaceUnit_self]

theorem toPosixPath_win32 (s : JSString) :
    toPosixPath .win32 s = replaceUnit backslash slash s := by
  simp [toPosixPath, posixSep, Platform.sep, join_split_single]

theorem toPlatformSpecificPath_win32 (s : JSString) :
    toPlatformSpecificPath .win32 s = replaceUnit slash backslash s := by
  simp [toPlatformSpecificPath, posixSep, Platform.sep, join_split_single]

theorem toPosixPath_append (pf : Platform) (a b : JSString) :
    toPosixPath pf (a ++ b) = toPosixPath pf a ++ toPosixPath pf b := by
  cases pf
  · simp [toPosixPath_posix]
  · simp [toPosixPath_win32, replaceUnit]

theorem toPosixPath_toPlatformSpecificPath (pf : Platform) (s : JSString) :
    toPosixPath pf (toPlatformSpecificPath pf s) = toPosixPath pf s := by
  cases pf
  · simp [toPosixPath_posix, toPlatformSpecificPath_posix]
  · simp only [toPosixPath_win32, toPlatformSpecificPath_win32, replaceUnit, List.map_map]
    apply List.map_congr_left
    intro x _
    by_cases h1 : x = slash
    · simp [h1, slash, backslash]
    · simp [h1]

theorem toPosixPath_eq_self_of_forall (pf : Platform) (s : JSString)
    (h : pf = .win32 → backslash ∉ s) : toPosixPath pf s = s := by
  cases pf
  · exact toPosixPath_posix s
  · rw [toPosixPath_win32, replaceUnit]
    have hb := h rfl
    conv_rhs => rw [← List.map_id s]
    apply List.map_congr_left
    intro x hx
    have : x ≠ backslash := fun e => hb (e ▸ hx)
    simp [this]

theorem toPosixPath_str_slash (pf : Platform) : toPosixPath pf (str "/") = str "/" :=
  toPosixPath_eq_self_of_forall pf _ (fun _ => by decide)

theorem backslash_not_mem_toPosixPath (s : JSString) : backslash ∉ toPosixPath .win32 s := by
  rw [toPosixPath_win32, replaceUnit]
  intro hmem
  rcases List.mem_map.1 hmem with ⟨x, _, hx⟩
  by_cases hxb : x = backslash
  · simp [hxb, slash, backslash] at hx
  · simp [hxb] at hx

/-! ## Facts about `split` -/

theorem splitGo_skip (sep : JSString) (k : Nat) (acc a x : JSString) (hk : a.length = k) :
    splitGo sep k acc (a ++ x) = splitGo sep 0 acc x := by
  induction a generalizing k with
  | nil => simp at hk; subst hk; rfl
  | cons c cs ih =>
    cases k with
    | zero => simp at hk
    | succ k =>
      simp only [List.length_cons, Nat.add_right_cancel_iff] at hk
      simpa [splitGo] using ih k hk

theorem split_append_self (sep x : JSString) (hsep : sep ≠ []) :
    split (sep ++ x) sep = [] :: split x sep := by
  cases sep with
  | nil => exact absurd rfl hsep
  | cons c cs =>
    have hp : (c :: cs).isPrefixOf (c :: (cs ++ x)) = true := by
      rw [List.isPrefixOf_iff_prefix]
      exact ⟨x, rfl⟩
    have hgo : splitGo (c :: cs) 0 [] (c :: (cs ++ x)) =
        [] :: splitGo (c :: cs) cs.length [] (cs ++ x) := by
      simp only [splitGo, hp, if_true, List.length_cons, Nat.add_sub_cancel]
    simp only [split, if_neg hsep, List.cons_append]
    rw [hgo, splitGo_skip _ _ _ _ _ rfl]

theorem splitGo_eq_singleton (sep acc x : JSString) (h : ¬ sep <:+: x) :
    splitGo sep 0 acc x = [acc ++ x] := by
  induction x generalizing acc with
  | nil => simp [splitGo]
  | cons c cs ih =>
    have hp : sep.isPrefixOf (c :: cs) = false := by
      cases hb : sep.isPrefixOf (c :: cs) with
      | false => rfl
      | true => exact absurd (List.isPrefixOf_iff_prefix.1 hb).isInfix h
    have ht : ¬ sep <:+: cs := fun hi => h (List.infix_cons hi)
    simp only [splitGo, hp, Bool.false_eq_true, if_false]
    rw [ih _ ht]
    simp

theorem split_eq_singleton (sep x : JSString) (hsep : sep ≠ []) (h : ¬ sep <:+: x) :
    split x sep = [x] := by
  simp [split, hsep, splitGo_eq_singleton sep [] x h]

theorem splitGo_single_append (c : CodeUnit) (acc a f : JSString) (hf : c ∉ f) :
    splitGo [c] 0 acc (a ++ c :: f) = splitGo [c] 0 acc a ++ [f] := by
  induction a generalizing acc with
  | nil =>
    have hni : ¬ [c] <:+: f := fun hi => hf (hi.subset (List.mem_singleton.2 rfl))
    simp [splitGo, List.isPrefixOf, splitGo_eq_singleton [c] [] f hni]
  | cons x xs ih =>
    by_cases hx : c = x
    · subst hx
      simp [splitGo, List.isPrefixOf, ih]
    · simp [splitGo, List.isPrefixOf, hx, ih]

theorem split_single_append (c : CodeUnit) (a f : JSString) (hf : c ∉ f) :
    split (a ++ c :: f) [c] = split a [c] ++ [f] := by
  simp [split, splitGo_single_append c [] a f hf]

theorem split_ne_nil (s sep : JSString) (hsep : sep ≠ []) : split s sep ≠ [] := by
  simp [split, hsep, splitGo_ne_nil]

theorem mem_of_mem_splitGo (sep : JSString) (k : Nat) (acc s p : JSString)
    (hp : p ∈ splitGo sep k acc s) (x : CodeUnit) (hx : x ∈ p) : x ∈ acc ∨ x ∈ s := by
  induction s generalizing k acc with
  | nil =>
    simp [splitGo] at hp
    subst hp
    exact Or.inl hx
  | cons c cs ih =>
    cases k with
    | zero =>
      simp only [splitGo] at hp
      split at hp
      · rcases List.mem_cons.1 hp with rfl | hp
        · exact Or.inl hx
        · rcases ih _ _ hp with h | h
          · simp at h
          · exact Or.inr (List.mem_cons_of_mem _ h)
      · rcases ih _ _ hp with h | h
        · rcases List.mem_append.1 h with h | h
          · exact Or.inl h
          · exact Or.inr (by simp at h; simp [h])
        · exact Or.inr (List.mem_cons_of_mem _ h)
    | succ k =>
      simp only [splitGo] at hp
      rcases ih _ _ hp with h | h
      · exact Or.inl h
      · exact Or.inr (List.mem_cons_of_mem _ h)

theorem mem_of_mem_split (s sep p : JSString) (hp : p ∈ split s sep) (x : CodeUnit)
    (hx : x ∈ p) : x ∈ s := by
  unfold split at hp
  split at hp
  · rcases List.mem_map.1 hp with ⟨c, hc, rfl⟩
    simp at hx
    subst hx
    exact hc
  · rcases mem_of_mem_splitGo _ _ _ _ _ hp x hx with h | h
    · simp at h
    · exact h

theorem not_mem_of_mem_splitGo_single (c : CodeUnit) (acc s p : JSString)
    (hp : p ∈ splitGo [c] 0 acc s) (hacc : c ∉ acc) : c ∉ p := by
  induction s generalizing acc with
  | nil =>
    simp [splitGo] at hp
    subst hp
    exact hacc
  | cons x xs ih =>
    by_cases hx : c = x
    · subst hx
      simp [splitGo, List.isPrefixOf] at hp
      rcases hp with rfl | hp
      · exact hacc
      · exact ih _ hp (by simp)
    · simp [splitGo, List.isPrefixOf, hx] at hp
      exact ih _ hp (by simp [hacc, hx])

theorem not_mem_of_mem_split_single (c : CodeUnit) (s p : JSString)
    (hp : p ∈ split s [c]) : c ∉ p := by
  simp only [split, List.cons_ne_nil, if_false] at hp
  exact not_mem_of_mem_splitGo_single c [] s p hp (by simp)

/-- The first part of a split either is the whole text (after `acc`) or ends where an
occurrence of the separator begins. -/
theorem splitGo_head (sep acc x e : JSString) (tl : List JSString)
    (h : splitGo sep 0 acc x = e :: tl) :
    e = acc ++ x ∨ ∃ pre more, e = acc ++ pre ∧ x = pre ++ sep ++ more := by
  induction x generalizing acc with
  | nil =>
    simp only [splitGo, List.cons.injEq] at h
    exact Or.inl (by simp [h.1])
  | cons c cs ih =>
    simp only [splitGo] at h
    split at h
    · rename_i hp
      simp only [List.cons.injEq] at h
      obtain ⟨more, hm⟩ := List.isPrefixOf_iff_prefix.1 hp
      exact Or.inr ⟨[], more, by simp [h.1], by simp [hm]⟩
    · rcases ih _ h with h1 | ⟨pre, more, h1, h2⟩
      · exact Or.inl (by simp [h1])
      · exact Or.inr ⟨c :: pre, more, by simp [h1], by simp [h2]⟩

theorem split_head (sep x e : JSString) (tl : List JSString) (hsep : sep ≠ [])
    (h : split x sep = e :: tl) : e = x ∨ ∃ more, x = e ++ sep ++ more := by
  simp only [split, if_neg hsep] at h
  rcases splitGo_head sep [] x e tl h with h1 | ⟨pre, more, h1, h2⟩
  · exact Or.inl (by simpa using h1)
  · simp only [List.nil_append] at h1
    exact Or.inr ⟨more, by rw [h1]; exact h2⟩

/-- Every part of a split lies inside the text. -/
theorem infix_of_mem_splitGo (sep : JSString) (k : Nat) (acc x p : JSString)
    (hk : k = 0 ∨ acc = []) (hp : p ∈ splitGo sep k acc x) : p <:+: acc ++ x := by
  induction x generalizing k acc with
  | nil =>
    simp only [splitGo, List.mem_singleton] at hp
    subst hp
    simp
  | cons c cs ih =>
    cases k with
    | zero =>
      simp only [splitGo] at hp
      split at hp
      · rcases List.mem_cons.1 hp with rfl | hp
        · exact (List.prefix_append _ _).isInfix
        · have := ih _ [] (Or.inr rfl) hp
          simp only [List.nil_append] at this
          exact this.trans ((List.suffix_cons c cs).isInfix.trans
            (List.suffix_append acc (c :: cs)).isInfix)
      · have := ih 0 (acc ++ [c]) (Or.inl rfl) hp
        simpa using this
    | succ k =>
      have hacc : acc = [] := by
        rcases hk with hk | hk
        · exact absurd hk (by simp)
        · exact hk
      subst hacc
      simp only [splitGo] at hp
      have := ih k [] (Or.inr rfl) hp
      simp only [List.nil_append] at this ⊢
      exact this.trans (List.suffix_cons c cs).isInfix

theorem infix_of_mem_split (s sep p : JSString) (hsep : sep ≠ []) (hp : p ∈ split s sep) :
    p <:+: s := by
  simp only [split, if_neg hsep] at hp
  simpa using infix_of_mem_splitGo sep 0 [] s p (Or.inl rfl) hp

/-- No part of a split by a non-empty separator contains the separator. -/
theorem not_infix_of_mem_splitGo (sep : JSString) (hsep : sep ≠ []) (k : Nat)
    (acc x p : JSString) (hk : k = 0 ∨ acc = [])
    (hinv : ∀ u v, acc = u ++ v → v ≠ [] → ¬ sep <+: v ++ x)
    (hp : p ∈ splitGo sep k acc x) : ¬ sep <:+: p := by
  have hemit : ∀ y : JSString, (∀ u v, acc = u ++ v → v ≠ [] → ¬ sep <+: v ++ y) →
      ¬ sep <:+: acc := by
    intro y hy hin
    obtain ⟨u, w, huw⟩ := hin
    have hv : sep ++ w ≠ [] := by simp [hsep]
    exact hy u (sep ++ w) (by simp [← huw]) hv ⟨w ++ y, by simp⟩
  induction x generalizing k acc with
  | nil =>
    simp only [splitGo, List.mem_singleton] at hp
    subst hp
    exact hemit [] hinv
  | cons c cs ih =>
    cases k with
    | zero =>
      simp only [splitGo] at hp
      split at hp
      · rcases List.mem_cons.1 hp with rfl | hp
        · exact hemit (c :: cs) hinv
        · refine ih _ [] (Or.inr rfl) ?_ hp ?_
          · intro u v huv hv
            have : v = [] := by
              cases u <;> cases v <;> simp at huv ⊢
            exact absurd this hv
          · intro y hy hin
            obtain ⟨u, w, huw⟩ := hin
            have : sep = [] := by
              cases sep with
              | nil => rfl
              | cons a as => cases u <;> simp at huw
            exact hsep this
      · rename_i hnp
        refine ih 0 (acc ++ [c]) (Or.inl rfl) ?_ hp ?_
        · intro u v huv hv hpre
          rcases List.eq_nil_or_concat v with hv0 | ⟨v1, b, hvb⟩
          · exact hv hv0
          · rw [List.concat_eq_append] at hvb
            subst hvb
            have h1 : acc ++ [c] = (u ++ v1) ++ [b] := by simp [huv]
            have h2 := List.append_inj' h1 rfl
            have hb : c = b := by simpa using h2.2
            subst hb
            by_cases hv1 : v1 = []
            · subst hv1
              simp only [List.nil_append, List.singleton_append] at hpre
              exact hnp (List.isPrefixOf_iff_prefix.2 hpre)
            · refine hinv u v1 h2.1 hv1 ?_
              have hre : v1 ++ [c] ++ cs = v1 ++ c :: cs := by simp
              rw [← hre]
              exact hpre
        · intro y hy hin
          obtain ⟨u, w, huw⟩ := hin
          have hv : sep ++ w ≠ [] := by simp [hsep]
          exact hy u (sep ++ w) (by simp [← huw]) hv ⟨w ++ y, by simp⟩
    | succ k =>
      have hacc : acc = [] := by
        rcases hk with hk | hk
        · exact absurd hk (by simp)
        · exact hk
      subst hacc
      simp only [splitGo] at hp
      refine ih k [] (Or.inr rfl) ?_ hp ?_
      · intro u v huv hv
        have : v = [] := by
          cases u <;> cases v <;> simp at huv ⊢
        exact absurd this hv
      · intro y hy hin
        obtain ⟨u, w, huw⟩ := hin
        have : sep = [] := by
          cases sep with
          | nil => rfl
          | cons a as => cases u <;> simp at huw
        exact hsep this

theorem not_infix_of_mem_split (s sep p : JSString) (hsep : sep ≠ []) (hp : p ∈ split s sep) :
    ¬ sep <:+: p := by
  simp only [split, if_neg hsep] at hp
  refine not_infix_of_mem_splitGo sep hsep 0 [] s p (Or.inl rfl) ?_ hp
  intro u v huv hv
  have : v = [] := by
    cases u <;> cases v <;> simp at huv ⊢
  exact absurd this hv

/-! ## The comparator and the sort -/

theorem jsLt_asymm (a b : List Nat) (h : jsLt a b = true) : jsLt b a = false := by
  induction a generalizing b with
  | nil => cases b <;> simp [jsLt] at h ⊢
  | cons x xs ih =>
    cases b with
    | nil => simp [jsLt] at h
    | cons y ys =>
      simp only [jsLt] at h ⊢
      by_cases h1 : x < y
      · have h2 : ¬ y < x := by omega
        simp [h1, h2]
      · by_cases h2 : y < x
        · simp [h1, h2] at h
        · simp [h1, h2] at h ⊢
          exact ih ys h

theorem jsLt_nil_right (c : List Nat) : jsLt c [] = false := by
  cases c <;> rfl

theorem jsLt_false_trans (a b c : List Nat) (hab : jsLt b a = false)
    (hbc : jsLt c b = false) : jsLt c a = false := by
  induction a generalizing b c with
  | nil => exact jsLt_nil_right c
  | cons x xs ih =>
    cases c with
    | nil => cases b <;> simp [jsLt] at hab hbc
    | cons z zs =>
      cases b with
      | nil => simp [jsLt] at hab
      | cons y ys =>
        simp only [jsLt] at hab hbc ⊢
        by_cases h1 : y < x
        · simp [h1] at hab
        · by_cases h2 : x < y
          · by_cases h3 : z < y
            · simp [h3] at hbc
            · have h4 : ¬ z < x := by omega
              have h5 : x < z := by omega
              simp [h4, h5]
          · have hxy : x = y := by omega
            subst hxy
            simp [h1] at hab
            by_cases h3 : z < x
            · simp [h3] at hbc
            · by_cases h4 : x < z
              · simp [h3, h4]
              · simp [h3, h4] at hbc ⊢
                exact ih ys zs hab hbc

theorem compareFn_le_zero_iff (a b : JSString) : compareFn a b ≤ 0 ↔ jsLt b a = false := by
  unfold compareFn
  by_cases h1 : jsLt a b = true
  · simp [h1, jsLt_asymm a b h1]
  · by_cases h2 : jsLt b a = true
    · simp [h1, h2]
    · simp [h1, h2]

theorem compareFn_total (a b : JSString) : compareFn a b ≤ 0 ∨ compareFn b a ≤ 0 := by
  rw [compareFn_le_zero_iff, compareFn_le_zero_iff]
  by_cases h : jsLt b a = true
  · exact Or.inr (jsLt_asymm b a h)
  · exact Or.inl (by simpa using h)

theorem insertBy_perm {α : Type} (cmp : α → α → Int) (x : α) (l : List α) :
    (insertBy cmp x l).Perm (x :: l) := by
  induction l with
  | nil => exact List.Perm.refl _
  | cons y ys ih =>
    simp only [insertBy]
    split
    · exact List.Perm.refl _
    · exact (List.Perm.cons y ih).trans (List.Perm.swap x y ys)

theorem stableSort_perm {α : Type} (cmp : α → α → Int) (l : List α) :
    (stableSort cmp l).Perm l := by
  induction l with
  | nil => exact List.Perm.refl _
  | cons x xs ih => exact (insertBy_perm cmp x _).trans (List.Perm.cons x ih)

theorem insertBy_pairwise {α : Type} (cmp : α → α → Int)
    (htotal : ∀ a b, cmp a b ≤ 0 ∨ cmp b a ≤ 0)
    (htrans : ∀ a b c, cmp a b ≤ 0 → cmp b c ≤ 0 → cmp a c ≤ 0)
    (x : α) (l : List α) (hl : l.Pairwise fun a b => cmp a b ≤ 0) :
    (insertBy cmp x l).Pairwise fun a b => cmp a b ≤ 0 := by
  induction l with
  | nil => simp [insertBy]
  | cons y ys ih =>
    rw [List.pairwise_cons] at hl
    simp only [insertBy]
    split
    · rename_i hxy
      refine List.Pairwise.cons ?_ (List.Pairwise.cons hl.1 hl.2)
      intro b hb
      rcases List.mem_cons.1 hb with rfl | hb
      · exact hxy
      · exact htrans _ _ _ hxy (hl.1 b hb)
    · rename_i hxy
      have hyx : cmp y x ≤ 0 := (htotal x y).resolve_left hxy
      refine List.Pairwise.cons ?_ (ih hl.2)
      intro b hb
      rcases List.mem_cons.1 ((insertBy_perm cmp x ys).subset hb) with rfl | hb
      · exact hyx
      · exact hl.1 b hb

theorem stableSort_pairwise {α : Type} (cmp : α → α → Int)
    (htotal : ∀ a b, cmp a b ≤ 0 ∨ cmp b a ≤ 0)
    (htrans : ∀ a b c, cmp a b ≤ 0 → cmp b c ≤ 0 → cmp a c ≤ 0) (l : List α) :
    (stableSort cmp l).Pairwise fun a b => cmp a b ≤ 0 := by
  induction l with
  | nil => simp [stableSort]
  | cons x xs ih => exact insertBy_pairwise cmp htotal htrans x _ ih

theorem insertBy_map_some (f : JSString → JSString → Int) (x : JSString) (l : List JSString) :
    insertBy (sortCompare f) (some x) (l.map some) = (insertBy f x l).map some := by
  induction l with
  | nil => rfl
  | cons y ys ih =>
    simp only [List.map_cons, insertBy, sortCompare]
    split
    · rfl
    · rw [ih]; rfl

theorem arraySort_map_some (f : JSString → JSString → Int) (l : List JSString) :
    arraySort f (l.map some) = (stableSort f l).map some := by
  induction l with
  | nil => rfl
  | cons x xs ih =>
    unfold arraySort at ih ⊢
    simp only [List.map_cons, stableSort]
    rw [ih, insertBy_map_some]

theorem stableSort_compareFn_pairwise (l : List JSString) :
    (stableSort compareFn l).Pairwise fun a b => jsLt b a = false := by
  have h := stableSort_pairwise compareFn compareFn_total
    (fun a b c hab hbc => by
      rw [compareFn_le_zero_iff] at hab hbc ⊢
      exact jsLt_false_trans a b c hab hbc) l
  exact h.imp fun {a b} hab => (compareFn_le_zero_iff a b).1 hab

theorem foldl_appendExport (acc : JSString) (l : List JSString) :
    (l.map some).foldl appendExport acc = acc ++ (l.map exportLine).flatten := by
  induction l generalizing acc with
  | nil => simp
  | cons x xs ih =>
    simp only [List.map_cons, List.foldl_cons, List.flatten_cons]
    rw [ih]
    simp [appendExport, toStringVal, exportLine]

theorem composeExports_map_some (l : List JSString) :
    composeExports (l.map some) = (l.map exportLine).flatten := by
  simp [composeExports, foldl_appendExport]

/-- What `shouldExport` decides, read off its branches: the path ends in `.dart`, does not
end in `<dirName>.dart`, and the matching exclusion flag, if any, is off. -/
theorem shouldExport_eq_true_iff (cfg : Config) (p d : JSString) :
    shouldExport cfg p d = true ↔
      endsWith p (str ".dart") = true ∧ endsWith p (d ++ str ".dart") = false ∧
        (if endsWith p (str ".freezed.dart") = true then cfg.excludeFreezed = false
         else if endsWith p (str ".g.dart") = true then cfg.excludeGenerated = false
         else True) := by
  unfold shouldExport getConfig
  by_cases h1 : endsWith p (str ".dart") = true <;>
    by_cases h2 : endsWith p (d ++ str ".dart") = true <;>
    by_cases h3 : endsWith p (str ".freezed.dart") = true <;>
    by_cases h4 : endsWith p (str ".g.dart") = true <;>
    simp [h1, h2, h3, h4]

/-! ## The structure of a resolved call -/

variable {σ : Type}

theorem generate_some (h : Host σ) (cfg : Config) (fuel : Nat) (st : σ) (T : JSString)
    (recursive : Bool) (a : Option JSString) (r : Generated σ)
    (hr : generate h cfg fuel st T recursive a = .resolved r) :
    ∃ fuel1 scan st1, fuel = fuel1 + 1 ∧
      scanLoop h cfg st T (split T (str "/")) ((split T (str "/")).getLastD []) recursive
        (h.findFiles st (searchPattern h.platform
          (appendedDirNameOf h.platform a ((split T (str "/")).getLastD [])))) ⟨[], []⟩ =
        some scan ∧
      (if recursive && decide (scan.dirs.length > 0) then
          nestedLoop (fun s d => generate h cfg fuel1 s d true
              (some (appendedDirNameOf h.platform a ((split T (str "/")).getLastD []))))
            h.platform T scan.dirs st scan.files
        else .resolved (st, scan.files)) = .resolved (st1, r.files) ∧
      r.exports = composeExports (arraySort compareFn r.files) ∧
      r.path = toPlatformSpecificPath h.platform (barrelFileOf T) ∧
      h.writeFile st1 r.path r.exports = some r.state := by
  cases fuel with
  | zero => simp [generate] at hr
  | succ fuel1 =>
    simp only [generate] at hr
    split at hr
    · exact absurd hr (by simp)
    · rename_i scan hscan
      split at hr
      · exact absurd hr (by simp)
      · exact absurd hr (by simp)
      · exact absurd hr (by simp)
      · rename_i st1 files hnested
        split at hr
        · exact absurd hr (by simp)
        · rename_i st2 hw
          simp only [Outcome.resolved.injEq] at hr
          subst hr
          exact ⟨fuel1, scan, st1, rfl, hscan, hnested, rfl, rfl, hw⟩



theorem nestedLoop_files (gen : σ → JSString → Outcome (Generated σ)) (pf : Platform)
    (T : JSString)
    (hgen : ∀ s d r, gen s d = .resolved r →
      r.path = toPlatformSpecificPath pf (barrelFileOf d))
    (ds : List JSString) (st : σ) (files : List JSVal) (st1 : σ) (files1 : List JSVal)
    (hn : nestedLoop gen pf T ds st files = .resolved (st1, files1)) :
    files1 = files ++
      ds.map fun d => nestedEntry pf T (toPlatformSpecificPath pf (barrelFileOf d)) := by
  induction ds generalizing st files with
  | nil =>
    simp [nestedLoop] at hn
    simp [hn.2]
  | cons d ds ih =>
    simp only [nestedLoop] at hn
    split at hn
    · rename_i r hr
      rw [ih _ _ hn, hgen _ _ _ hr]
      simp
    · exact absurd hn (by simp)
    · exact absurd hn (by simp)
    · exact absurd hn (by simp)

theorem generate_path (h : Host σ) (cfg : Config) (fuel : Nat) (st : σ) (T : JSString)
    (recursive : Bool) (a : Option JSString) (r : Generated σ)
    (hr : generate h cfg fuel st T recursive a = .resolved r) :
    r.path = toPlatformSpecificPath h.platform (barrelFileOf T) := by
  obtain ⟨_, _, _, _, _, _, _, hp, _⟩ := generate_some h cfg fuel st T recursive a r hr
  exact hp

/-- The outcome of one iteration of the scan, by cases. -/
theorem scanStep_cases (h : Host σ) (cfg : Config) (st : σ) (T : JSString)
    (splitDir : List JSString) (dirName : JSString) (recursive : Bool) (acc acc1 : Scan)
    (t : JSString)
    (hs : scanStep h cfg st T splitDir dirName recursive acc t = some acc1) :
    acc1 = acc ∨
    (h.lstatSync st (toPosixPath h.platform t) = some .file ∧
      shouldExport cfg (toPosixPath h.platform t) dirName = true ∧
      ((split (toPosixPath h.platform t) (str "/")).length : Int) - (splitDir.length : Int) = 1 ∧
      acc1 = { acc with files := acc.files ++ [some (baseName (toPosixPath h.platform t))] }) ∨
    (recursive = true ∧ h.lstatSync st (toPosixPath h.platform t) = some .file ∧
      shouldExport cfg (toPosixPath h.platform t) dirName = true ∧
      ((split (toPosixPath h.platform t) (str "/")).length : Int) -
          (splitDir.length : Int) ≠ 1 ∧
      ∃ f, folderNameOf T (toPosixPath h.platform t) = some f ∧
        acc1 = { acc with dirs := setAdd acc.dirs (T ++ (str "/" ++ f)) }) := by
  unfold scanStep at hs
  simp only at hs
  split at hs
  · exact absurd hs (by simp)
  · rename_i stat hstat
    split at hs
    · rename_i hfile
      have hstat1 : h.lstatSync st (toPosixPath h.platform t) = some .file := by
        rw [hstat]
        cases stat <;> simp [Stat.isFile] at hfile ⊢
      split at hs
      · rename_i hse
        split at hs
        · rename_i hd
          refine Or.inr (Or.inl ⟨hstat1, hse, hd, ?_⟩)
          simp only [Option.some.injEq] at hs
          exact hs.symm
        · split at hs
          · rename_i hd hrec
            split at hs
            · rename_i f hf
              refine Or.inr (Or.inr ⟨hrec, hstat1, hse, hd, f, hf, ?_⟩)
              simp only [Option.some.injEq] at hs
              exact hs.symm
            · simp only [Option.some.injEq] at hs
              exact Or.inl hs.symm
          · simp only [Option.some.injEq] at hs
            exact Or.inl hs.symm
      · simp only [Option.some.injEq] at hs
        exact Or.inl hs.symm
    · simp only [Option.some.injEq] at hs
      exact Or.inl hs.symm

theorem mem_setAdd (dirs : List JSString) (d x : JSString) (hx : x ∈ setAdd dirs d) :
    x ∈ dirs ∨ x = d := by
  unfold setAdd at hx
  split at hx
  · exact Or.inl hx
  · simpa using hx

/-- Where the entries and directories collected by the scan come from. -/
theorem scanLoop_sources (h : Host σ) (cfg : Config) (st : σ) (T : JSString)
    (splitDir : List JSString) (dirName : JSString) (recursive : Bool)
    (ts : List JSString) (acc acc1 : Scan)
    (hs : scanLoop h cfg st T splitDir dirName recursive ts acc = some acc1) :
    (∀ v ∈ acc1.files, v ∈ acc.files ∨ ∃ t ∈ ts,
        h.lstatSync st (toPosixPath h.platform t) = some .file ∧
        shouldExport cfg (toPosixPath h.platform t) dirName = true ∧
        ((split (toPosixPath h.platform t) (str "/")).length : Int) -
            (splitDir.length : Int) = 1 ∧
        v = some (baseName (toPosixPath h.platform t))) ∧
    (∀ d ∈ acc1.dirs, d ∈ acc.dirs ∨ ∃ t ∈ ts, recursive = true ∧
        h.lstatSync st (toPosixPath h.platform t) = some .file ∧
        shouldExport cfg (toPosixPath h.platform t) dirName = true ∧
        ((split (toPosixPath h.platform t) (str "/")).length : Int) -
          (splitDir.length : Int) ≠ 1 ∧
        ∃ f, folderNameOf T (toPosixPath h.platform t) = some f ∧ d = T ++ (str "/" ++ f)) := by
  induction ts generalizing acc with
  | nil =>
    simp only [scanLoop, Option.some.injEq] at hs
    subst hs
    exact ⟨fun v hv => Or.inl hv, fun d hd => Or.inl hd⟩
  | cons t ts ih =>
    simp only [scanLoop] at hs
    split at hs
    · exact absurd hs (by simp)
    · rename_i acc2 hstep
      obtain ⟨ihf, ihd⟩ := ih _ hs
      rcases scanStep_cases h cfg st T splitDir dirName recursive acc acc2 t hstep with
        rfl | ⟨hst, hse, hd, rfl⟩ | ⟨hrec, hst, hse, hd, f, hf, rfl⟩
      · refine ⟨fun v hv => ?_, fun d hd => ?_⟩
        · rcases ihf v hv with h1 | ⟨t1, ht1, h1⟩
          · exact Or.inl h1
          · exact Or.inr ⟨t1, List.mem_cons_of_mem _ ht1, h1⟩
        · rcases ihd d hd with h1 | ⟨t1, ht1, h1⟩
          · exact Or.inl h1
          · exact Or.inr ⟨t1, List.mem_cons_of_mem _ ht1, h1⟩
      · refine ⟨fun v hv => ?_, fun d hd1 => ?_⟩
        · rcases ihf v hv with h1 | ⟨t1, ht1, h1⟩
          · rcases List.mem_append.1 h1 with h1 | h1
            · exact Or.inl h1
            · exact Or.inr ⟨t, List.mem_cons_self _ _, hst, hse, hd, by simpa using h1⟩
          · exact Or.inr ⟨t1, List.mem_cons_of_mem _ ht1, h1⟩
        · rcases ihd d hd1 with h1 | ⟨t1, ht1, h1⟩
          · exact Or.inl h1
          · exact Or.inr ⟨t1, List.mem_cons_of_mem _ ht1, h1⟩
      · refine ⟨fun v hv => ?_, fun d hd1 => ?_⟩
        · rcases ihf v hv with h1 | ⟨t1, ht1, h1⟩
          · exact Or.inl h1
          · exact Or.inr ⟨t1, List.mem_cons_of_mem _ ht1, h1⟩
        · rcases ihd d hd1 with h1 | ⟨t1, ht1, h1⟩
          · rcases mem_setAdd _ _ _ h1 with h1 | h1
            · exact Or.inl h1
            · exact Or.inr ⟨t, List.mem_cons_self _ _, hrec, hst, hse, hd, f, hf, h1⟩
          · exact Or.inr ⟨t1, List.mem_cons_of_mem _ ht1, h1⟩

theorem str_slash : str "/" = [slash] := by decide

theorem getLastD_split_mem (T : JSString) :
    (split T (str "/")).getLastD [] ∈ split T (str "/") := by
  have hne : split T (str "/") ≠ [] := split_ne_nil T (str "/") (by decide)
  rw [List.getLastD_eq_getLast?, List.getLast?_eq_getLast _ hne]
  exact List.getLast_mem hne

theorem slash_not_mem_dirName (T : JSString) : slash ∉ (split T (str "/")).getLastD [] := by
  have h := getLastD_split_mem T
  rw [str_slash] at h ⊢
  exact not_mem_of_mem_split_single slash T _ h

theorem dirName_append_slash (T f : JSString) (hf : slash ∉ f) :
    (split (T ++ (str "/" ++ f)) (str "/")).getLastD [] = f := by
  rw [str_slash]
  have : T ++ ([slash] ++ f) = T ++ slash :: f := rfl
  rw [this, split_single_append slash T f hf, List.getLastD_concat]

theorem folderNameOf_spec (T p f : JSString) (h : folderNameOf T p = some f) :
    slash ∉ f ∧ ∀ x ∈ f, x ∈ p := by
  unfold folderNameOf at h
  split at h
  · rename_i a second rest hsplit
    split at h
    · rename_i b folderName rest2 hsplit2
      simp only [Option.some.injEq] at h
      subst h
      have hmem : folderName ∈ split second (str "/") := by rw [hsplit2]; simp
      have hsec : second ∈ split p T := by rw [hsplit]; simp
      refine ⟨?_, fun x hx => ?_⟩
      · rw [str_slash] at hmem
        exact not_mem_of_mem_split_single slash second _ hmem
      · exact mem_of_mem_split p T second hsec x (mem_of_mem_split second _ _ hmem x hx)
    · exact absurd h (by simp)
  · exact absurd h (by simp)

/-- The nested entry is always a string when the target is in posix style. -/
theorem nestedEntry_isSome (pf : Platform) (T f : JSString) (hT : toPosixPath pf T = T) :
    ∃ e, nestedEntry pf T (toPlatformSpecificPath pf (barrelFileOf (T ++ (str "/" ++ f)))) =
      some e := by
  unfold nestedEntry barrelFileOf
  rw [toPosixPath_toPlatformSpecificPath]
  simp only [List.append_assoc]
  rw [toPosixPath_append, hT, toPosixPath_append]
  have hsl : toPosixPath pf (str "/") = str "/" :=
    toPosixPath_eq_self_of_forall pf _ (fun _ => by decide)
  rw [hsl, ← List.append_assoc, split_append_self _ _ (by simp [str_slash])]
  have hne := split_ne_nil
    (toPosixPath pf (f ++ (str "/" ++
      ((split (T ++ (str "/" ++ f)) (str "/")).getLastD [] ++ str ".dart"))))
    (T ++ str "/") (by simp [str_slash])
  cases hsp : split
    (toPosixPath pf (f ++ (str "/" ++
      ((split (T ++ (str "/" ++ f)) (str "/")).getLastD [] ++ str ".dart"))))
    (T ++ str "/") with
  | nil => exact absurd hsp hne
  | cons e es => exact ⟨e, by simp⟩

/-- For an absolute target in posix style and a folder name free of separators, the
nested entry is `<folder>/<folder>.dart`. -/
theorem nestedEntry_eq (pf : Platform) (T f : JSString) (hT : toPosixPath pf T = T)
    (hs : slash ∈ T) (hf : slash ∉ f) (hfb : pf = .win32 → backslash ∉ f) :
    nestedEntry pf T (toPlatformSpecificPath pf (barrelFileOf (T ++ (str "/" ++ f)))) =
      some (f ++ str "/" ++ f ++ str ".dart") := by
  unfold nestedEntry barrelFileOf
  rw [toPosixPath_toPlatformSpecificPath, dirName_append_slash T f hf]
  have hrest : toPosixPath pf (f ++ str "/" ++ f ++ str ".dart") =
      f ++ str "/" ++ f ++ str ".dart" := by
    apply toPosixPath_eq_self_of_forall
    intro hpf
    have hb := hfb hpf
    have h1 : backslash ∉ str "/" := by decide
    have h2 : backslash ∉ str ".dart" := by decide
    simp [hb, h1, h2]
  have hre : T ++ (str "/" ++ f) ++ str "/" ++ f ++ str ".dart" =
      (T ++ str "/") ++ (f ++ str "/" ++ f ++ str ".dart") := by simp
  rw [hre, toPosixPath_append, toPosixPath_append, hT, hrest]
  have hsl : toPosixPath pf (str "/") = str "/" :=
    toPosixPath_eq_self_of_forall pf _ (fun _ => by decide)
  rw [hsl, split_append_self _ _ (by simp [str_slash])]
  have hni : ¬ (T ++ str "/") <:+: (f ++ str "/" ++ f ++ str ".dart") := by
    intro hi
    have hc := hi.sublist.count_le slash
    have c1 : List.count slash (str "/") = 1 := by decide
    have c2 : List.count slash (str ".dart") = 0 := by decide
    have c3 : List.count slash f = 0 := List.count_eq_zero.2 hf
    have c4 : 0 < List.count slash T := List.count_pos_iff.2 hs
    simp only [List.count_append, c1, c2, c3] at hc
    omega
  rw [split_eq_singleton _ _ (by simp [str_slash]) hni]
  rfl

theorem split_singleton_slash (c : CodeUnit) :
    split [c] (str "/") = if c = slash then [[], []] else [[c]] := by
  rw [str_slash]
  by_cases hc : c = slash
  · subst hc
    simp [split, splitGo, List.isPrefixOf]
  · have hc2 : ¬ slash = c := fun e => hc e.symm
    simp [split, splitGo, List.isPrefixOf, hc, hc2]

/-- The folder name extracted from a path never contains the target's path, and is
empty when the target's path is. -/
theorem folderNameOf_not_infix (T p f : JSString) (h : folderNameOf T p = some f) :
    (T ≠ [] → ¬ T <:+: f) ∧ (T = [] → f = []) := by
  unfold folderNameOf at h
  split at h
  · rename_i a second rest hsplit
    split at h
    · rename_i b folderName rest2 hsplit2
      simp only [Option.some.injEq] at h
      subst h
      have hmem : folderName ∈ split second (str "/") := by rw [hsplit2]; simp
      have hsec : second ∈ split p T := by rw [hsplit]; simp
      constructor
      · intro hT hin
        have h1 := infix_of_mem_split second (str "/") folderName (by decide) hmem
        exact not_infix_of_mem_split p T second hT hsec (hin.trans h1)
      · intro hT
        subst hT
        simp only [split, if_true] at hsec
        rcases List.mem_map.1 hsec with ⟨c, _, hc⟩
        subst hc
        rw [split_singleton_slash] at hsplit2
        split at hsplit2
        · simp only [List.cons.injEq] at hsplit2
          exact hsplit2.2.1.symm
        · simp at hsplit2
    · exact absurd h (by simp)
  · exact absurd h (by simp)

/-- What the entry of a nested barrel file can be, for a folder name free of
separators: the target is then in posix style and the entry is `<f>/<f>.dart` or the
part of it that precedes an occurrence of `<target>/`. -/
theorem nestedEntry_cases (pf : Platform) (T f e : JSString) (hf : slash ∉ f)
    (hfb : pf = .win32 → backslash ∉ f)
    (he : nestedEntry pf T (toPlatformSpecificPath pf (barrelFileOf (T ++ (str "/" ++ f)))) =
      some e) :
    e = f ++ str "/" ++ f ++ str ".dart" ∨
      ∃ more, f ++ str "/" ++ f ++ str ".dart" = e ++ (T ++ str "/") ++ more := by
  unfold nestedEntry barrelFileOf at he
  rw [toPosixPath_toPlatformSpecificPath, dirName_append_slash T f hf] at he
  have hrest : toPosixPath pf (f ++ str "/" ++ f ++ str ".dart") =
      f ++ str "/" ++ f ++ str ".dart" := by
    apply toPosixPath_eq_self_of_forall
    intro hpf
    have hb := hfb hpf
    have h1 : backslash ∉ str "/" := by decide
    have h2 : backslash ∉ str ".dart" := by decide
    simp [hb, h1, h2]
  have hre : T ++ (str "/" ++ f) ++ str "/" ++ f ++ str ".dart" =
      (T ++ str "/") ++ (f ++ str "/" ++ f ++ str ".dart") := by simp
  rw [hre, toPosixPath_append, toPosixPath_append, hrest, toPosixPath_str_slash] at he
  have hsepne : T ++ str "/" ≠ [] := by simp [str_slash]
  by_cases hT : toPosixPath pf T = T
  · rw [hT, split_append_self _ _ hsepne] at he
    cases hsp : split (f ++ str "/" ++ f ++ str ".dart") (T ++ str "/") with
    | nil => exact absurd hsp (split_ne_nil _ _ hsepne)
    | cons e1 tl =>
      rw [hsp] at he
      simp only [List.get?_cons_succ, List.get?_cons_zero, Option.some.injEq] at he
      subst he
      exact split_head _ _ _ _ hsepne hsp
  · exfalso
    cases pf with
    | posix => exact hT (toPosixPath_posix T)
    | win32 =>
      have hbT : backslash ∈ T := by
        by_contra hno
        exact hT (toPosixPath_eq_self_of_forall .win32 T (fun _ => hno))
      have hni : ¬ (T ++ str "/") <:+:
          (toPosixPath .win32 T ++ str "/" ++ (f ++ str "/" ++ f ++ str ".dart")) := by
        intro hin
        have hmem : backslash ∈
            toPosixPath .win32 T ++ str "/" ++ (f ++ str "/" ++ f ++ str ".dart") :=
          hin.subset (by simp [hbT])
        have hb := hfb rfl
        have h1 : backslash ∉ str "/" := by decide
        have h2 : backslash ∉ str ".dart" := by decide
        have h3 := backslash_not_mem_toPosixPath T
        simp only [List.mem_append] at hmem
        tauto
      rw [split_eq_singleton _ _ hsepne hni] at he
      simp at he

/-- The entries a resolved call has collected: those of the scan, followed by one nested
entry per directory of the scan, in order. -/
theorem generate_files (h : Host σ) (cfg : Config) (fuel : Nat) (st : σ) (T : JSString)
    (recursive : Bool) (a : Option JSString) (r : Generated σ)
    (hr : generate h cfg fuel st T recursive a = .resolved r) :
    ∃ scan st1,
      scanLoop h cfg st T (split T (str "/")) ((split T (str "/")).getLastD []) recursive
        (h.findFiles st (searchPattern h.platform
          (appendedDirNameOf h.platform a ((split T (str "/")).getLastD [])))) ⟨[], []⟩ =
        some scan ∧
      r.files = scan.files ++ scan.dirs.map (fun d =>
        nestedEntry h.platform T (toPlatformSpecificPath h.platform (barrelFileOf d))) ∧
      r.exports = composeExports (arraySort compareFn r.files) ∧
      r.path = toPlatformSpecificPath h.platform (barrelFileOf T) ∧
      h.writeFile st1 r.path r.exports = some r.state := by
  obtain ⟨fuel1, scan, st1, _, hscan, hnested, hexp, hpath, hw⟩ :=
    generate_some h cfg fuel st T recursive a r hr
  refine ⟨scan, st1, hscan, ?_, hexp, hpath, hw⟩
  by_cases hrec : recursive = true
  · by_cases hlen : scan.dirs.length > 0
    · simp only [hrec, hlen, decide_True, Bool.and_self, if_true] at hnested
      exact nestedLoop_files _ _ _
        (fun s d r1 hr1 => generate_path h cfg fuel1 s d true _ r1 hr1) _ _ _ _ _ hnested
    · have hnil : scan.dirs = [] := List.length_eq_zero.1 (by omega)
      simp [hrec, hnil] at hnested
      simp [hnil, hnested.2]
  · have hnil : scan.dirs = [] := by
      cases hd : scan.dirs with
      | nil => rfl
      | cons d ds =>
        have := (scanLoop_sources _ _ _ _ _ _ _ _ _ _ hscan).2 d (by simp [hd])
        rcases this with h1 | ⟨_, _, h1, _⟩
        · simp at h1
        · exact absurd h1 hrec
    simp [hrec] at hnested
    simp [hnil, hnested.2]

/-- Every directory the scan collects is the target followed by `/` and a folder name
that contains neither `/` nor, on Windows, `\`, nor the target's path. -/
theorem scanLoop_dirs_shape (h : Host σ) (cfg : Config) (st : σ) (T : JSString)
    (splitDir : List JSString) (dirName : JSString) (recursive : Bool)
    (ts : List JSString) (scan : Scan)
    (hs : scanLoop h cfg st T splitDir dirName recursive ts ⟨[], []⟩ = some scan)
    (d : JSString) (hd : d ∈ scan.dirs) :
    ∃ f, d = T ++ (str "/" ++ f) ∧ slash ∉ f ∧ (h.platform = .win32 → backslash ∉ f) ∧
      (T ≠ [] → ¬ T <:+: f) ∧ (T = [] → f = []) ∧
      ∃ t ∈ ts, h.lstatSync st (toPosixPath h.platform t) = some .file ∧
        shouldExport cfg (toPosixPath h.platform t) dirName = true ∧
        folderNameOf T (toPosixPath h.platform t) = some f := by
  rcases (scanLoop_sources _ _ _ _ _ _ _ _ _ _ hs).2 d hd with
    h1 | ⟨t, ht, _, hst, hse, _, f, hf, hdf⟩
  · simp at h1
  · obtain ⟨hsl, hsub⟩ := folderNameOf_spec _ _ _ hf
    obtain ⟨hni, hnil⟩ := folderNameOf_not_infix _ _ _ hf
    refine ⟨f, hdf, hsl, ?_, hni, hnil, t, ht, hst, hse, hf⟩
    intro hpf hb
    have := hsub _ hb
    rw [hpf] at this
    exact backslash_not_mem_toPosixPath t this

theorem baseName_suffix (p : JSString) : baseName p <:+ p := by
  unfold baseName substring
  exact List.drop_suffix _ _

theorem lastIndexOfGo_single_of_not_mem (c : CodeUnit) (s : JSString) (i : Nat) (best : Int)
    (h : c ∉ s) : lastIndexOfGo [c] s i best = best := by
  induction s generalizing i best with
  | nil => simp [lastIndexOfGo, List.isPrefixOf]
  | cons x xs ih =>
    have hx : ¬ c = x := fun e => h (by simp [e])
    have hxs : c ∉ xs := fun e => h (List.mem_cons_of_mem _ e)
    simp [lastIndexOfGo, List.isPrefixOf, hx, ih _ _ hxs]

theorem lastIndexOfGo_single_split (c : CodeUnit) (pre post : JSString) (i : Nat) (best : Int)
    (h : c ∉ post) :
    lastIndexOfGo [c] (pre ++ c :: post) i best = ((i + pre.length : Nat) : Int) := by
  induction pre generalizing i best with
  | nil =>
    simp [lastIndexOfGo, List.isPrefixOf, lastIndexOfGo_single_of_not_mem c post _ _ h]
  | cons x xs ih =>
    have hstep : lastIndexOfGo [c] (x :: xs ++ c :: post) i best =
        lastIndexOfGo [c] (xs ++ c :: post) (i + 1)
          (if [c].isPrefixOf (x :: (xs ++ c :: post)) then (i : Int) else best) := rfl
    rw [hstep, ih, List.length_cons]
    congr 1
    omega

theorem exists_last_split (c : CodeUnit) (s : JSString) (h : c ∈ s) :
    ∃ pre post, s = pre ++ c :: post ∧ c ∉ post := by
  induction s with
  | nil => simp at h
  | cons x xs ih =>
    by_cases hxs : c ∈ xs
    · obtain ⟨pre, post, hs, hp⟩ := ih hxs
      exact ⟨x :: pre, post, by simp [hs], hp⟩
    · have hx : c = x := by
        rcases List.mem_cons.1 h with h1 | h1
        · exact h1
        · exact absurd h1 hxs
      exact ⟨[], xs, by simp [hx], hxs⟩

theorem baseName_append_slash (pre post : JSString) (h : slash ∉ post) :
    baseName (pre ++ slash :: post) = post := by
  unfold baseName lastIndexOf substring
  rw [str_slash, lastIndexOfGo_single_split slash pre post 0 (-1) h]
  have : (((0 + pre.length : Nat) : Int) + 1).toNat = pre.length + 1 := by omega
  rw [this]
  simp

theorem baseName_of_not_mem (s : JSString) (h : slash ∉ s) : baseName s = s := by
  unfold baseName lastIndexOf substring
  rw [str_slash, lastIndexOfGo_single_of_not_mem slash s 0 (-1) h]
  simp

theorem slash_not_mem_baseName (p : JSString) : slash ∉ baseName p := by
  by_cases h : slash ∈ p
  · obtain ⟨pre, post, hp, hpost⟩ := exists_last_split slash p h
    rw [hp, baseName_append_slash pre post hpost]
    exact hpost
  · rw [baseName_of_not_mem p h]
    exact h

theorem append_cons_unique (c : CodeUnit) (a b x y : JSString) (ha : c ∉ a) (hb : c ∉ b)
    (h : a ++ c :: x = b ++ c :: y) : a = b ∧ x = y := by
  induction a generalizing b with
  | nil =>
    cases b with
    | nil => simpa using h
    | cons b0 bs =>
      simp at h
      exact absurd h.1 (fun e => hb (by simp [e]))
  | cons a0 as ih =>
    cases b with
    | nil =>
      simp at h
      exact absurd h.1.symm (fun e => ha (by simp [e]))
    | cons b0 bs =>
      simp only [List.cons_append, List.cons.injEq] at h
      have ha1 : c ∉ as := fun e => ha (List.mem_cons_of_mem _ e)
      have hb1 : c ∉ bs := fun e => hb (List.mem_cons_of_mem _ e)
      obtain ⟨h1, h2⟩ := ih bs ha1 hb1 h.2
      exact ⟨by rw [h.1, h1], h2⟩

theorem exists_map_some (l : List JSVal) (h : ∀ v ∈ l, ∃ e, v = some e) :
    ∃ es : List JSString, l = es.map some := by
  induction l with
  | nil => exact ⟨[], rfl⟩
  | cons v vs ih =>
    obtain ⟨e, he⟩ := h v (List.mem_cons_self _ _)
    obtain ⟨es, hes⟩ := ih (fun w hw => h w (List.mem_cons_of_mem _ hw))
    exact ⟨e :: es, by simp [he, hes]⟩

/-- C2: the text `generate` hands to `writeFile` is the concatenation of the lines
`export '<e>';` + line break over the collected entries put in non-decreasing code-unit
order: the sorted list is a permutation of the collected entries, every entry gives
exactly one line, nothing else is written, and an empty list of entries gives the empty
text.  The target is in posix style, as the source requires of `targetPath`. -/
theorem generate_exports_sorted_lines (h : Host σ) (cfg : Config) (fuel : Nat) (st : σ)
    (T : JSString) (recursive : Bool) (a : Option JSString) (r : Generated σ)
    (hT : toPosixPath h.platform T = T)
    (hr : generate h cfg fuel st T recursive a = .resolved r) :
    ∃ (entries sorted : List JSString) (st1 : σ),
      r.files = entries.map some ∧
      sorted.Perm entries ∧
      sorted.Pairwise (fun x y => jsLt y x = false) ∧
      r.exports = (sorted.map exportLine).flatten ∧
      (entries = [] → r.exports = []) ∧
      h.writeFile st1 (toPlatformSpecificPath h.platform (barrelFileOf T)) r.exports =
        some r.state := by
  obtain ⟨scan, st1, hscan, hfiles, hexp, hpath, hw⟩ :=
    generate_files h cfg fuel st T recursive a r hr
  have hall : ∀ v ∈ r.files, ∃ e, v = some e := by
    intro v hv
    rw [hfiles] at hv
    rcases List.mem_append.1 hv with hv | hv
    · rcases (scanLoop_sources _ _ _ _ _ _ _ _ _ _ hscan).1 v hv with h1 | ⟨t, _, _, _, _, h1⟩
      · simp at h1
      · exact ⟨_, h1⟩
    · rcases List.mem_map.1 hv with ⟨d, hd, rfl⟩
      obtain ⟨f, hdf, _⟩ := scanLoop_dirs_shape _ _ _ _ _ _ _ _ _ hscan d hd
      rw [hdf]
      exact nestedEntry_isSome h.platform T f hT
  obtain ⟨es, hes⟩ := exists_map_some r.files hall
  have hexp2 : r.exports = ((stableSort compareFn es).map exportLine).flatten := by
    rw [hexp, hes, arraySort_map_some, composeExports_map_some]
  refine ⟨es, stableSort compareFn es, st1, hes, stableSort_perm _ _,
    stableSort_compareFn_pairwise es, hexp2, ?_, ?_⟩
  · intro hnil
    rw [hexp2, hnil]
    rfl
  · rw [← hpath]
    exact hw

/-- C3: whatever the target directory, the workspace search and the recursive flag, no
entry collected by a resolved call is printed as `<dirName>.dart`, and the text written
is composed from exactly these entries: the barrel file never exports itself. -/
theorem generate_never_exports_itself (h : Host σ) (cfg : Config) (fuel : Nat) (st : σ)
    (T : JSString) (recursive : Bool) (a : Option JSString) (r : Generated σ)
    (hr : generate h cfg fuel st T recursive a = .resolved r) :
    (∀ v ∈ r.files, toStringVal v ≠ (split T (str "/")).getLastD [] ++ str ".dart") ∧
      r.exports = composeExports (arraySort compareFn r.files) := by
  obtain ⟨scan, st1, hscan, hfiles, hexp, _, _⟩ :=
    generate_files h cfg fuel st T recursive a r hr
  refine ⟨?_, hexp⟩
  suffices hsome : some ((split T (str "/")).getLastD [] ++ str ".dart") ∉ r.files by
    intro v hv heq
    cases v with
    | none =>
      have hsuf : str ".dart" <:+ str "undefined" :=
        ⟨(split T (str "/")).getLastD [], heq.symm⟩
      exact absurd hsuf (by decide)
    | some e =>
      simp only [toStringVal] at heq
      exact hsome (heq ▸ hv)
  intro hv
  rw [hfiles] at hv
  have hnd : slash ∉ (split T (str "/")).getLastD [] ++ str ".dart" := by
    intro hmem
    rcases List.mem_append.1 hmem with hm | hm
    · exact slash_not_mem_dirName T hm
    · exact absurd hm (by decide)
  rcases List.mem_append.1 hv with hv | hv
  · rcases (scanLoop_sources _ _ _ _ _ _ _ _ _ _ hscan).1 _ hv with h1 | ⟨t, _, _, hse, _, h1⟩
    · simp at h1
    · simp only [Option.some.injEq] at h1
      have hsuf := baseName_suffix (toPosixPath h.platform t)
      rw [← h1] at hsuf
      have hends : endsWith (toPosixPath h.platform t)
          ((split T (str "/")).getLastD [] ++ str ".dart") = true := by
        unfold endsWith
        exact List.isSuffixOf_iff_suffix.2 hsuf
      rw [shouldExport_eq_true_iff] at hse
      rw [hse.2.1] at hends
      exact absurd hends (by simp)
  · rcases List.mem_map.1 hv with ⟨d, hd, hde⟩
    obtain ⟨f, hdf, hfs, hfb, hni, hnil, _⟩ :=
      scanLoop_dirs_shape _ _ _ _ _ _ _ _ _ hscan d hd
    rw [hdf] at hde
    rcases nestedEntry_cases h.platform T f _ hfs hfb hde with he | ⟨more, hm⟩
    · exact hnd (by rw [he]; simp [str_slash])
    · by_cases hsT : slash ∈ T
      · have hc := congrArg (List.count slash) hm
        have c1 : List.count slash (str "/") = 1 := by decide
        have c2 : List.count slash (str ".dart") = 0 := by decide
        have c3 : List.count slash f = 0 := List.count_eq_zero.2 hfs
        have c4 : 0 < List.count slash T := List.count_pos_iff.2 hsT
        simp only [List.count_append, c1, c2, c3] at hc
        omega
      · have hleft : slash ∉ (split T (str "/")).getLastD [] ++ str ".dart" ++ T := by
          intro hmem
          rcases List.mem_append.1 hmem with hm1 | hm1
          · exact hnd hm1
          · exact hsT hm1
        have heq : f ++ slash :: (f ++ str ".dart") =
            ((split T (str "/")).getLastD [] ++ str ".dart" ++ T) ++ slash :: more := by
          have := hm
          simp only [str_slash, List.append_assoc, List.singleton_append] at this ⊢
          exact this
        have hf := (append_cons_unique slash _ _ _ _ hfs hleft heq).1
        by_cases hT0 : T = []
        · have := hnil hT0
          rw [this, hT0] at hf
          have hd5 : str ".dart" ≠ [] := by decide
          simp at hf
          exact hd5 hf.2
        · exact hni hT0 ⟨(split T (str "/")).getLastD [] ++ str ".dart", [], by simp [hf]⟩

/-! ## The scan as a function of the enumeration -/

theorem scanStep_eq (h : Host σ) (cfg : Config) (st : σ) (T : JSString)
    (splitDir : List JSString) (dirName : JSString) (recursive : Bool) (acc : Scan)
    (t : JSString) (hstat : (h.lstatSync st (toPosixPath h.platform t)).isSome = true) :
    scanStep h cfg st T splitDir dirName recursive acc t =
      some ⟨acc.files ++ (scanEntry h cfg st splitDir dirName t).toList,
        (scanDir h cfg st T splitDir dirName recursive t).toList.foldl setAdd acc.dirs⟩ := by
  unfold scanStep scanEntry scanDir
  cases hl : h.lstatSync st (toPosixPath h.platform t) with
  | none => simp [hl] at hstat
  | some stat =>
    cases stat <;>
    by_cases hse : shouldExport cfg (toPosixPath h.platform t) dirName = true <;>
    by_cases hd : ((split (toPosixPath h.platform t) (str "/")).length : Int) -
        (splitDir.length : Int) = 1 <;>
    by_cases hrec : recursive = true <;>
    cases hf : folderNameOf T (toPosixPath h.platform t) <;>
    simp [hl, Stat.isFile, hse, hd, hrec, hf, baseName]

theorem scanLoop_eq (h : Host σ) (cfg : Config) (st : σ) (T : JSString)
    (splitDir : List JSString) (dirName : JSString) (recursive : Bool)
    (ts : List JSString) (acc : Scan)
    (hstat : ∀ t ∈ ts, (h.lstatSync st (toPosixPath h.platform t)).isSome = true) :
    scanLoop h cfg st T splitDir dirName recursive ts acc =
      some ⟨acc.files ++ ts.filterMap (scanEntry h cfg st splitDir dirName),
        (ts.filterMap (scanDir h cfg st T splitDir dirName recursive)).foldl setAdd
          acc.dirs⟩ := by
  induction ts generalizing acc with
  | nil => simp [scanLoop]
  | cons t ts ih =>
    simp only [scanLoop]
    rw [scanStep_eq h cfg st T splitDir dirName recursive acc t
      (hstat t (List.mem_cons_self _ _))]
    simp only
    rw [ih _ (fun u hu => hstat u (List.mem_cons_of_mem _ hu))]
    cases he : scanEntry h cfg st splitDir dirName t <;>
      cases hd : scanDir h cfg st T splitDir dirName recursive t <;>
      simp [List.filterMap_cons, he, hd]



theorem jsLt_antisymm (a b : List Nat) (hab : jsLt b a = false) (hba : jsLt a b = false) :
    a = b := by
  induction a generalizing b with
  | nil => cases b <;> simp [jsLt] at hba ⊢
  | cons x xs ih =>
    cases b with
    | nil => simp [jsLt] at hab
    | cons y ys =>
      simp only [jsLt] at hab hba
      by_cases h1 : x < y
      · simp [h1] at hba
      · by_cases h2 : y < x
        · simp [h2] at hab
        · simp [h1, h2] at hab hba
          have : x = y := by omega
          rw [this, ih ys hab hba]

theorem stableSort_eq_of_perm (l1 l2 : List JSString) (hp : l1.Perm l2) :
    stableSort compareFn l1 = stableSort compareFn l2 := by
  haveI : IsAntisymm JSString (fun x y => jsLt y x = false) :=
    ⟨fun a b hab hba => jsLt_antisymm a b hab hba⟩
  exact List.eq_of_perm_of_sorted
    (((stableSort_perm compareFn l1).trans hp).trans (stableSort_perm compareFn l2).symm)
    (stableSort_compareFn_pairwise l1) (stableSort_compareFn_pairwise l2)

theorem generate_succ (h : Host σ) (cfg : Config) (fuel : Nat) (st : σ) (T : JSString)
    (recursive : Bool) (a : Option JSString) :
    generate h cfg (fuel + 1) st T recursive a =
      match scanLoop h cfg st T (split T (str "/")) ((split T (str "/")).getLastD []) recursive
          (h.findFiles st (searchPattern h.platform
            (appendedDirNameOf h.platform a ((split T (str "/")).getLastD [])))) ⟨[], []⟩ with
      | none => .rejected .host
      | some scan =>
        match
          (if recursive && decide (scan.dirs.length > 0) then
            nestedLoop (fun s d => generate h cfg fuel s d true
                (some (appendedDirNameOf h.platform a ((split T (str "/")).getLastD []))))
              h.platform T scan.dirs st scan.files
          else .resolved (st, scan.files)) with
        | .rejected e => .rejected e
        | .pending => .pending
        | .cutOff => .cutOff
        | .resolved (st1, files) =>
          match h.writeFile st1 (toPlatformSpecificPath h.platform (barrelFileOf T))
              (composeExports (arraySort compareFn files)) with
          | none => .pending
          | some st2 =>
            .resolved ⟨st2, toPlatformSpecificPath h.platform (barrelFileOf T), files,
              composeExports (arraySort compareFn files)⟩ := rfl

theorem toPosixPath_name (pf : Platform) (x : JSString) (hx : IsName pf x) :
    toPosixPath pf x = x :=
  toPosixPath_eq_self_of_forall pf x hx.2

/-- The native form of `<D>/<y>` converts back to `<D>/<y>`. -/
theorem toPosixPath_child (pf : Platform) (D y : JSString) (hD : toPosixPath pf D = D)
    (hy : IsName pf y) :
    toPosixPath pf (toPlatformSpecificPath pf (D ++ str "/" ++ y)) = D ++ str "/" ++ y := by
  rw [toPosixPath_toPlatformSpecificPath, toPosixPath_append, toPosixPath_append, hD,
    toPosixPath_str_slash, toPosixPath_name pf y hy]

theorem split_child_length (D y : JSString) (hy : slash ∉ y) :
    (split (D ++ str "/" ++ y) (str "/")).length = (split D (str "/")).length + 1 := by
  rw [str_slash]
  have : D ++ [slash] ++ y = D ++ slash :: y := by simp
  rw [this, split_single_append slash D y hy]
  simp

theorem baseName_child (D y : JSString) (hy : slash ∉ y) :
    baseName (D ++ str "/" ++ y) = y := by
  rw [str_slash]
  have : D ++ [slash] ++ y = D ++ slash :: y := by simp
  rw [this, baseName_append_slash D y hy]

/-- An eligible regular file directly inside the target is pushed under its name. -/
theorem scanEntry_child (h : Host σ) (cfg : Config) (st : σ) (D y : JSString)
    (hD : toPosixPath h.platform D = D) (hy : IsName h.platform y)
    (hse : shouldExport cfg (D ++ str "/" ++ y) ((split D (str "/")).getLastD []) = true)
    (hst : h.lstatSync st (D ++ str "/" ++ y) = some .file) :
    scanEntry h cfg st (split D (str "/")) ((split D (str "/")).getLastD [])
      (toPlatformSpecificPath h.platform (D ++ str "/" ++ y)) = some (some y) := by
  unfold scanEntry
  rw [toPosixPath_child h.platform D y hD hy, split_child_length D y hy.1,
    baseName_child D y hy.1]
  rw [if_pos]
  exact ⟨hst, hse, by push_cast; omega⟩

theorem scanDir_child (h : Host σ) (cfg : Config) (st : σ) (D y : JSString)
    (recursive : Bool) (hD : toPosixPath h.platform D = D) (hy : IsName h.platform y) :
    scanDir h cfg st D (split D (str "/")) ((split D (str "/")).getLastD []) recursive
      (toPlatformSpecificPath h.platform (D ++ str "/" ++ y)) = none := by
  unfold scanDir
  rw [toPosixPath_child h.platform D y hD hy, split_child_length D y hy.1]
  rw [if_neg]
  rintro ⟨_, _, hd, _⟩
  exact hd (by push_cast; omega)

theorem foldl_setAdd_nil (l : List JSString) (d : JSString) (hne : l ≠ [])
    (hall : ∀ e ∈ l, e = d) : l.foldl setAdd [] = [d] := by
  have hstep : ∀ l : List JSString, (∀ e ∈ l, e = d) → l.foldl setAdd [d] = [d] := by
    intro l
    induction l with
    | nil => intro _; rfl
    | cons e es ih =>
      intro hl
      have he : e = d := hl e (List.mem_cons_self _ _)
      subst he
      simp only [List.foldl_cons]
      have : setAdd [e] e = [e] := by simp [setAdd]
      rw [this]
      exact ih (fun x hx => hl x (List.mem_cons_of_mem _ hx))
  cases l with
  | nil => exact absurd rfl hne
  | cons e es =>
    have he : e = d := hall e (List.mem_cons_self _ _)
    subst he
    simp only [List.foldl_cons]
    have : setAdd [] e = [e] := by simp [setAdd]
    rw [this]
    exact hstep es (fun x hx => hall x (List.mem_cons_of_mem _ hx))

theorem perm_map_some (entries : List JSVal) (Y : List JSString)
    (hp : entries.Perm (Y.map some)) :
    ∃ es : List JSString, entries = es.map some ∧ es.Perm Y := by
  have hall : ∀ v ∈ entries, ∃ e, v = some e := by
    intro v hv
    rcases List.mem_map.1 (hp.subset hv) with ⟨e, _, he⟩
    exact ⟨e, he.symm⟩
  obtain ⟨es, hes⟩ := exists_map_some entries hall
  refine ⟨es, hes, ?_⟩
  have := hp.filterMap id
  rw [hes] at this
  simpa [List.filterMap_map] using this

theorem composeExports_of_perm (entries : List JSVal) (Y : List JSString)
    (hp : entries.Perm (Y.map some)) :
    composeExports (arraySort compareFn entries) =
      ((stableSort compareFn Y).map exportLine).flatten := by
  obtain ⟨es, hes, hperm⟩ := perm_map_some entries Y hp
  rw [hes, arraySort_map_some, composeExports_map_some, stableSort_eq_of_perm es Y hperm]

/-- What a call resolves to on a directory whose search returns, in any order, exactly
the eligible regular files `Y` lying directly inside it. -/
theorem generate_leaf (h : Host σ) (cfg : Config) (fuel : Nat) (st : σ) (D : JSString)
    (recursive : Bool) (a : Option JSString) (Y : List JSString)
    (hD : toPosixPath h.platform D = D)
    (hY : ∀ y ∈ Y, IsName h.platform y ∧
      shouldExport cfg (D ++ str "/" ++ y) ((split D (str "/")).getLastD []) = true ∧
      h.lstatSync st (D ++ str "/" ++ y) = some .file)
    (hfind : (h.findFiles st (searchPattern h.platform
        (appendedDirNameOf h.platform a ((split D (str "/")).getLastD [])))).Perm
      (Y.map fun y => toPlatformSpecificPath h.platform (D ++ str "/" ++ y))) :
    ∃ entries : List JSVal, entries.Perm (Y.map some) ∧
      generate h cfg (fuel + 1) st D recursive a =
        match h.writeFile st (toPlatformSpecificPath h.platform (barrelFileOf D))
          ((stableSort compareFn Y).map exportLine).flatten with
        | none => .pending
        | some st1 =>
          .resolved ⟨st1, toPlatformSpecificPath h.platform (barrelFileOf D), entries,
            ((stableSort compareFn Y).map exportLine).flatten⟩ := by
  generalize hts : h.findFiles st (searchPattern h.platform
    (appendedDirNameOf h.platform a ((split D (str "/")).getLastD []))) = ts at hfind
  have hmem : ∀ t ∈ ts, ∃ y ∈ Y,
      t = toPlatformSpecificPath h.platform (D ++ str "/" ++ y) := by
    intro t ht
    rcases List.mem_map.1 (hfind.subset ht) with ⟨y, hy, rfl⟩
    exact ⟨y, hy, rfl⟩
  have hstat : ∀ t ∈ ts, (h.lstatSync st (toPosixPath h.platform t)).isSome = true := by
    intro t ht
    obtain ⟨y, hy, rfl⟩ := hmem t ht
    rw [toPosixPath_child h.platform D y hD (hY y hy).1, (hY y hy).2.2]
    rfl
  have hscan := scanLoop_eq h cfg st D (split D (str "/")) ((split D (str "/")).getLastD [])
    recursive ts ⟨[], []⟩ hstat
  have hdirs : ts.filterMap (scanDir h cfg st D (split D (str "/"))
      ((split D (str "/")).getLastD []) recursive) = [] := by
    rw [List.filterMap_eq_nil_iff]
    intro t ht
    obtain ⟨y, hy, rfl⟩ := hmem t ht
    exact scanDir_child h cfg st D y recursive hD (hY y hy).1
  have hentries : (ts.filterMap (scanEntry h cfg st (split D (str "/"))
      ((split D (str "/")).getLastD []))).Perm (Y.map some) := by
    refine (hfind.filterMap _).trans (List.Perm.of_eq ?_)
    rw [List.filterMap_map, ← List.filterMap_eq_map]
    apply List.filterMap_congr
    intro y hy
    exact scanEntry_child h cfg st D y hD (hY y hy).1 (hY y hy).2.1 (hY y hy).2.2
  refine ⟨_, hentries, ?_⟩
  rw [generate_succ, hts, hscan]
  simp only [hdirs, List.foldl_nil, List.length_nil, gt_iff_lt, Nat.lt_irrefl, decide_False,
    Bool.and_false, Bool.false_eq_true, if_false, List.nil_append]
  rw [composeExports_of_perm _ _ hentries]

theorem folderNameOf_grandchild (T sub y : JSString) (hT : T ≠ []) (hsub : slash ∉ sub)
    (hy : slash ∉ y) (hni : ¬ T <:+: (str "/" ++ sub ++ str "/" ++ y)) :
    folderNameOf T (T ++ str "/" ++ sub ++ str "/" ++ y) = some sub := by
  unfold folderNameOf
  have h1 : T ++ str "/" ++ sub ++ str "/" ++ y = T ++ (str "/" ++ sub ++ str "/" ++ y) := by
    simp
  rw [h1, split_append_self _ _ hT, split_eq_singleton _ _ hT hni]
  simp only
  have h2 : str "/" ++ sub ++ str "/" ++ y = ([] ++ slash :: sub) ++ slash :: y := by
    simp [str_slash]
  rw [h2, str_slash, split_single_append slash _ y hy, split_single_append slash [] sub hsub]
  rfl

theorem toPosixPath_subdir (pf : Platform) (T sub : JSString) (hT : toPosixPath pf T = T)
    (hsub : IsName pf sub) : toPosixPath pf (T ++ str "/" ++ sub) = T ++ str "/" ++ sub := by
  rw [toPosixPath_append, toPosixPath_append, hT, toPosixPath_str_slash,
    toPosixPath_name pf sub hsub]

theorem split_grandchild_length (T sub y : JSString) (hsub : slash ∉ sub) (hy : slash ∉ y) :
    (split (T ++ str "/" ++ sub ++ str "/" ++ y) (str "/")).length =
      (split T (str "/")).length + 2 := by
  rw [split_child_length (T ++ str "/" ++ sub) y hy, split_child_length T sub hsub]

/-- A file one level further down is not pushed onto `files`. -/
theorem scanEntry_grandchild (h : Host σ) (cfg : Config) (st : σ) (T sub y : JSString)
    (hT : toPosixPath h.platform T = T) (hsub : IsName h.platform sub)
    (hy : IsName h.platform y) :
    scanEntry h cfg st (split T (str "/")) ((split T (str "/")).getLastD [])
      (toPlatformSpecificPath h.platform (T ++ str "/" ++ sub ++ str "/" ++ y)) = none := by
  unfold scanEntry
  rw [toPosixPath_child h.platform _ y (toPosixPath_subdir h.platform T sub hT hsub) hy,
    split_grandchild_length T sub y hsub.1 hy.1]
  rw [if_neg]
  rintro ⟨_, _, hd⟩
  push_cast at hd
  omega

/-- A regular file one level further down adds its folder to `dirs` exactly when it
passes `shouldExport` against the name of the target. -/
theorem scanDir_grandchild (h : Host σ) (cfg : Config) (st : σ) (T sub y : JSString)
    (hT : toPosixPath h.platform T = T) (hne : T ≠ []) (hsub : IsName h.platform sub)
    (hy : IsName h.platform y)
    (hst : h.lstatSync st (T ++ str "/" ++ sub ++ str "/" ++ y) = some .file)
    (hni : ¬ T <:+: (str "/" ++ sub ++ str "/" ++ y)) :
    scanDir h cfg st T (split T (str "/")) ((split T (str "/")).getLastD []) true
      (toPlatformSpecificPath h.platform (T ++ str "/" ++ sub ++ str "/" ++ y)) =
      if shouldExport cfg (T ++ str "/" ++ sub ++ str "/" ++ y)
          ((split T (str "/")).getLastD []) = true
      then some (T ++ (str "/" ++ sub)) else none := by
  unfold scanDir
  rw [toPosixPath_child h.platform _ y (toPosixPath_subdir h.platform T sub hT hsub) hy,
    split_grandchild_length T sub y hsub.1 hy.1,
    folderNameOf_grandchild T sub y hne hsub.1 hy.1 hni]
  by_cases hse : shouldExport cfg (T ++ str "/" ++ sub ++ str "/" ++ y)
      ((split T (str "/")).getLastD []) = true
  · rw [if_pos hse, if_pos]
    · rfl
    · refine ⟨hst, hse, ?_, rfl⟩
      push_cast
      omega
  · rw [if_neg hse, if_neg]
    rintro ⟨_, h2, _⟩
    exact hse h2

theorem barrelFileOf_subdir (T sub : JSString) (hsub : slash ∉ sub) :
    barrelFileOf (T ++ (str "/" ++ sub)) =
      T ++ str "/" ++ sub ++ str "/" ++ sub ++ str ".dart" := by
  unfold barrelFileOf
  rw [dirName_append_slash T sub hsub]
  simp

/-- The composition of a root and one subdirectory, where the code achieves it: let `T`
be an absolute root in posix style whose search returns, in any order, the eligible
regular files `X` directly inside it and the regular files `Y` inside its one
subdirectory `sub`, the files of `Y` being eligible in `sub`, at least one of them also
passing `shouldExport` against the name of the root, and `T` not recurring inside
`/sub/<y>`.  Then a recursive call with room for one nested call first writes
`T/sub/sub.dart` with the sorted export lines of `Y`, then writes the barrel file of `T`
with the sorted export lines of `X` together with `sub/sub.dart`, and resolves to the
path of that file. -/
theorem generate_root_with_subdirectory (h : Host σ) (cfg : Config) (fuel : Nat) (st : σ)
    (T sub : JSString) (X Y : List JSString)
    (hT : toPosixPath h.platform T = T) (hs : slash ∈ T) (hsub : IsName h.platform sub)
    (hX : ∀ x ∈ X, IsName h.platform x ∧
      shouldExport cfg (T ++ str "/" ++ x) ((split T (str "/")).getLastD []) = true ∧
      h.lstatSync st (T ++ str "/" ++ x) = some .file)
    (hY : ∀ y ∈ Y, IsName h.platform y ∧
      shouldExport cfg (T ++ str "/" ++ sub ++ str "/" ++ y) sub = true ∧
      h.lstatSync st (T ++ str "/" ++ sub ++ str "/" ++ y) = some .file ∧
      ¬ T <:+: (str "/" ++ sub ++ str "/" ++ y))
    (hYroot : ∃ y ∈ Y, shouldExport cfg (T ++ str "/" ++ sub ++ str "/" ++ y)
      ((split T (str "/")).getLastD []) = true)
    (hfind : (h.findFiles st
        (searchPattern h.platform ((split T (str "/")).getLastD []))).Perm
      ((X.map fun x => toPlatformSpecificPath h.platform (T ++ str "/" ++ x)) ++
        (Y.map fun y =>
          toPlatformSpecificPath h.platform (T ++ str "/" ++ sub ++ str "/" ++ y))))
    (hfindSub : (h.findFiles st (searchPattern h.platform
        (appendedDirNameOf h.platform (some ((split T (str "/")).getLastD [])) sub))).Perm
      (Y.map fun y =>
        toPlatformSpecificPath h.platform (T ++ str "/" ++ sub ++ str "/" ++ y))) :
    ∃ entries : List JSVal,
      entries.Perm ((X ++ [sub ++ str "/" ++ sub ++ str ".dart"]).map some) ∧
      generate h cfg (fuel + 2) st T true none =
        match h.writeFile st
          (toPlatformSpecificPath h.platform
            (T ++ str "/" ++ sub ++ str "/" ++ sub ++ str ".dart"))
          ((stableSort compareFn Y).map exportLine).flatten with
        | none => .pending
        | some st1 =>
          match h.writeFile st1 (toPlatformSpecificPath h.platform (barrelFileOf T))
            ((stableSort compareFn (X ++ [sub ++ str "/" ++ sub ++ str ".dart"])).map
              exportLine).flatten with
          | none => .pending
          | some st2 =>
            .resolved ⟨st2, toPlatformSpecificPath h.platform (barrelFileOf T), entries,
              ((stableSort compareFn (X ++ [sub ++ str "/" ++ sub ++ str ".dart"])).map
                exportLine).flatten⟩ := by
  have hne : T ≠ [] := fun e => by rw [e] at hs; simp at hs
  have hDposix : toPosixPath h.platform (T ++ (str "/" ++ sub)) = T ++ (str "/" ++ sub) := by
    have := toPosixPath_subdir h.platform T sub hT hsub
    simpa using this
  have hDname : (split (T ++ (str "/" ++ sub)) (str "/")).getLastD [] = sub :=
    dirName_append_slash T sub hsub.1
  have hassoc : ∀ y : JSString,
      T ++ (str "/" ++ sub) ++ str "/" ++ y = T ++ str "/" ++ sub ++ str "/" ++ y := by
    intro y; simp
  -- the nested call
  obtain ⟨entries1, _, hleaf⟩ := generate_leaf h cfg fuel st (T ++ (str "/" ++ sub)) true
    (some ((split T (str "/")).getLastD [])) Y hDposix
    (fun y hy => by
      rw [hDname, hassoc]
      exact ⟨(hY y hy).1, (hY y hy).2.1, (hY y hy).2.2.1⟩)
    (by
      rw [hDname]
      simpa only [hassoc] using hfindSub)
  rw [barrelFileOf_subdir T sub hsub.1] at hleaf
  -- the scan of the root
  generalize hts : h.findFiles st
    (searchPattern h.platform ((split T (str "/")).getLastD [])) = ts at hfind
  have hmem : ∀ t ∈ ts,
      (∃ x ∈ X, t = toPlatformSpecificPath h.platform (T ++ str "/" ++ x)) ∨
      (∃ y ∈ Y, t = toPlatformSpecificPath h.platform
        (T ++ str "/" ++ sub ++ str "/" ++ y)) := by
    intro t ht
    rcases List.mem_append.1 (hfind.subset ht) with hm | hm
    · rcases List.mem_map.1 hm with ⟨x, hx, rfl⟩
      exact Or.inl ⟨x, hx, rfl⟩
    · rcases List.mem_map.1 hm with ⟨y, hy, rfl⟩
      exact Or.inr ⟨y, hy, rfl⟩
  have hstat : ∀ t ∈ ts, (h.lstatSync st (toPosixPath h.platform t)).isSome = true := by
    intro t ht
    rcases hmem t ht with ⟨x, hx, rfl⟩ | ⟨y, hy, rfl⟩
    · rw [toPosixPath_child h.platform T x hT (hX x hx).1, (hX x hx).2.2]
      rfl
    · rw [toPosixPath_child h.platform _ y (toPosixPath_subdir h.platform T sub hT hsub)
        (hY y hy).1, (hY y hy).2.2.1]
      rfl
  have hscan := scanLoop_eq h cfg st T (split T (str "/")) ((split T (str "/")).getLastD [])
    true ts ⟨[], []⟩ hstat
  have hentries : (ts.filterMap (scanEntry h cfg st (split T (str "/"))
      ((split T (str "/")).getLastD []))).Perm (X.map some) := by
    refine (hfind.filterMap _).trans (List.Perm.of_eq ?_)
    rw [List.filterMap_append, List.filterMap_map, List.filterMap_map]
    have h1 : List.filterMap (scanEntry h cfg st (split T (str "/"))
        ((split T (str "/")).getLastD []) ∘
          fun x => toPlatformSpecificPath h.platform (T ++ str "/" ++ x)) X = X.map some := by
      rw [← List.filterMap_eq_map]
      apply List.filterMap_congr
      intro x hx
      exact scanEntry_child h cfg st T x hT (hX x hx).1 (hX x hx).2.1 (hX x hx).2.2
    have h2 : List.filterMap (scanEntry h cfg st (split T (str "/"))
        ((split T (str "/")).getLastD []) ∘
          fun y => toPlatformSpecificPath h.platform
            (T ++ str "/" ++ sub ++ str "/" ++ y)) Y = [] := by
      rw [List.filterMap_eq_nil_iff]
      intro y hy
      exact scanEntry_grandchild h cfg st T sub y hT hsub (hY y hy).1
    rw [h1, h2, List.append_nil]
  have hdirs : (ts.filterMap (scanDir h cfg st T (split T (str "/"))
      ((split T (str "/")).getLastD []) true)).foldl setAdd [] = [T ++ (str "/" ++ sub)] := by
    have hdmem : ∀ e, e ∈ ts.filterMap (scanDir h cfg st T (split T (str "/"))
        ((split T (str "/")).getLastD []) true) ↔
        ∃ t ∈ ts, scanDir h cfg st T (split T (str "/"))
          ((split T (str "/")).getLastD []) true t = some e := by
      intro e
      simp [List.mem_filterMap]
    apply foldl_setAdd_nil
    · obtain ⟨y, hy, hse⟩ := hYroot
      have hin : toPlatformSpecificPath h.platform (T ++ str "/" ++ sub ++ str "/" ++ y) ∈ ts :=
        hfind.symm.subset (List.mem_append_right _ (List.mem_map.2 ⟨y, hy, rfl⟩))
      have hd := scanDir_grandchild h cfg st T sub y hT hne hsub (hY y hy).1 (hY y hy).2.2.1
        (hY y hy).2.2.2
      rw [if_pos hse] at hd
      exact List.ne_nil_of_mem ((hdmem _).2 ⟨_, hin, hd⟩)
    · intro e he
      obtain ⟨t, ht, hte⟩ := (hdmem e).1 he
      rcases hmem t ht with ⟨x, hx, rfl⟩ | ⟨y, hy, rfl⟩
      · rw [scanDir_child h cfg st T x true hT (hX x hx).1] at hte
        exact absurd hte (by simp)
      · rw [scanDir_grandchild h cfg st T sub y hT hne hsub (hY y hy).1 (hY y hy).2.2.1
          (hY y hy).2.2.2] at hte
        split at hte
        · simpa using hte.symm
        · exact absurd hte (by simp)
  have hall : (ts.filterMap (scanEntry h cfg st (split T (str "/"))
      ((split T (str "/")).getLastD [])) ++
        [some (sub ++ str "/" ++ sub ++ str ".dart")]).Perm
      ((X ++ [sub ++ str "/" ++ sub ++ str ".dart"]).map some) := by
    rw [List.map_append]
    exact List.Perm.append hentries (List.Perm.refl _)
  refine ⟨_, hall, ?_⟩
  have happ : appendedDirNameOf h.platform none ((split T (str "/")).getLastD []) =
      (split T (str "/")).getLastD [] := rfl
  rw [generate_succ, happ, hts, hscan]
  simp only [List.nil_append, hdirs, List.length_singleton, gt_iff_lt, Nat.lt_one_iff,
    Nat.zero_lt_one, decide_True, Bool.and_self, if_true, nestedLoop]
  rw [hleaf]
  cases hw1 : h.writeFile st
      (toPlatformSpecificPath h.platform
        (T ++ str "/" ++ sub ++ str "/" ++ sub ++ str ".dart"))
      ((stableSort compareFn Y).map exportLine).flatten with
  | none => rfl
  | some st1 =>
    simp only
    have hent := nestedEntry_eq h.platform T sub hT hs hsub.1 hsub.2
    rw [barrelFileOf_subdir T sub hsub.1] at hent
    rw [hent, composeExports_of_perm _ _ hall]

/-! ## Where a nested reference comes from -/

theorem folderNameOf_eq_some (T p s : JSString) (h : folderNameOf T p = some s) :
    ∃ a second tl b tl2,
      split p T = a :: second :: tl ∧ split second (str "/") = b :: s :: tl2 := by
  unfold folderNameOf at h
  split at h
  · rename_i a second rest hsplit
    split at h
    · rename_i b folderName rest2 hsplit2
      simp only [Option.some.injEq] at h
      subst h
      exact ⟨a, second, rest, b, rest2, hsplit, hsplit2⟩
    · exact absurd h (by simp)
  · exact absurd h (by simp)

theorem split_slash_cons (z : JSString) :
    split (slash :: z) (str "/") = [] :: split z (str "/") := by
  rw [str_slash]
  exact split_append_self [slash] z (by simp)

/-- A path that is the target followed by `/` and more, and from which the scan extracts
the folder name `s` on its recursive branch, continues with `s/`, provided the target
begins with `/` or does not occur again after itself. -/
theorem prefix_of_folderNameOf (T p s : JSString)
    (hpre : (T ++ str "/") <+: p)
    (hT : T.head? = some slash ∨ ¬ T <:+: p.drop (T.length + 1))
    (hdepth : ((split p (str "/")).length : Int) - ((split T (str "/")).length : Int) ≠ 1)
    (hf : folderNameOf T p = some s) :
    (T ++ str "/" ++ s ++ str "/") <+: p := by
  obtain ⟨q, hq⟩ := hpre
  have hdrop : p.drop (T.length + 1) = q := by
    rw [← hq]
    simp [str_slash]
  rw [hdrop] at hT
  have hne : T ≠ [] := by
    rcases hT with h1 | h1
    · intro e; rw [e] at h1; simp at h1
    · intro e; rw [e] at h1; exact h1 ⟨[], q, by simp⟩
  have hss : slash ∉ s := (folderNameOf_spec T p s hf).1
  obtain ⟨a, second, tl, b, tl2, hsp, hsp2⟩ := folderNameOf_eq_some T p s hf
  have hp : p = T ++ (slash :: q) := by rw [← hq]; simp [str_slash]
  rw [hp, split_append_self T _ hne] at hsp
  simp only [List.cons.injEq] at hsp
  have hhead := split_head T (slash :: q) second tl hne hsp.2
  -- what the text after the first `/` of `second` looks like
  have hfirst : ∀ z : JSString, split (slash :: z) (str "/") = b :: s :: tl2 →
      z = s ∨ ∃ more, z = s ++ slash :: more := by
    intro z hz
    rw [split_slash_cons] at hz
    simp only [List.cons.injEq] at hz
    have := split_head (str "/") z s tl2 (by decide) hz.2
    rcases this with h1 | ⟨more, h1⟩
    · exact Or.inl h1.symm
    · exact Or.inr ⟨more, by rw [h1]; simp [str_slash]⟩
  rcases hhead with hwhole | ⟨more, hcut⟩
  · rw [hwhole] at hsp2
    rcases hfirst q hsp2 with h1 | ⟨m, h1⟩
    · exfalso
      apply hdepth
      have hp2 : p = T ++ str "/" ++ s := by rw [hp, h1]; simp [str_slash]
      rw [hp2, split_child_length T s hss]
      push_cast
      omega
    · exact ⟨m, by rw [hp, h1]; simp [str_slash]⟩
  · cases second with
    | nil =>
      have : split [] (str "/") = [[]] := by decide
      rw [this] at hsp2
      simp at hsp2
    | cons c second1 =>
      simp only [List.cons_append, List.cons.injEq] at hcut
      obtain ⟨hc, hq2⟩ := hcut
      subst hc
      rcases hT with hslash | hrec
      · rcases hfirst second1 hsp2 with h1 | ⟨m, h1⟩
        · cases T with
          | nil => exact absurd rfl hne
          | cons t0 T1 =>
            simp only [List.head?_cons, Option.some.injEq] at hslash
            subst hslash
            exact ⟨T1 ++ more, by rw [hp, hq2, h1]; simp [str_slash]⟩
        · exact ⟨m ++ T ++ more, by rw [hp, hq2, h1]; simp [str_slash]⟩
      · exact absurd ⟨second1, more, by simp [hq2]⟩ hrec

/-- C4, amended: when every enumerated file lies below the target (its path starts with
`<target>/`, the target beginning with `/` or not occurring again in the rest of the
path), an entry `<s>/<s>.dart` with `s` free of `/` is collected only by a recursive
call, and only when a regular file lying in `<target>/<s>/`, directly or deeper, passes
`shouldExport` against the name of the target directory itself. -/
theorem nested_reference_has_source (h : Host σ) (cfg : Config) (fuel : Nat) (st : σ)
    (T : JSString) (recursive : Bool) (a : Option JSString) (r : Generated σ)
    (hr : generate h cfg fuel st T recursive a = .resolved r)
    (hbelow : ∀ t ∈ h.findFiles st (searchPattern h.platform
          (appendedDirNameOf h.platform a ((split T (str "/")).getLastD []))),
      (T ++ str "/") <+: toPosixPath h.platform t ∧
        (T.head? = some slash ∨
          ¬ T <:+: (toPosixPath h.platform t).drop (T.length + 1)))
    (s : JSString) (hss : slash ∉ s)
    (hmem : some (s ++ str "/" ++ s ++ str ".dart") ∈ r.files) :
    recursive = true ∧
    ∃ t ∈ h.findFiles st (searchPattern h.platform
          (appendedDirNameOf h.platform a ((split T (str "/")).getLastD []))),
      h.lstatSync st (toPosixPath h.platform t) = some .file ∧
      shouldExport cfg (toPosixPath h.platform t) ((split T (str "/")).getLastD []) = true ∧
      (T ++ str "/" ++ s ++ str "/") <+: toPosixPath h.platform t := by
  obtain ⟨scan, st1, hscan, hfiles, _, _, _⟩ :=
    generate_files h cfg fuel st T recursive a r hr
  rw [hfiles] at hmem
  rcases List.mem_append.1 hmem with hv | hv
  · rcases (scanLoop_sources _ _ _ _ _ _ _ _ _ _ hscan).1 _ hv with h1 | ⟨t, _, _, _, _, h1⟩
    · simp at h1
    · simp only [Option.some.injEq] at h1
      have hno := slash_not_mem_baseName (toPosixPath h.platform t)
      rw [← h1] at hno
      exact absurd (by simp [str_slash]) hno
  · rcases List.mem_map.1 hv with ⟨d, hd, hde⟩
    rcases (scanLoop_sources _ _ _ _ _ _ _ _ _ _ hscan).2 d hd with
      h1 | ⟨t, ht, hrec, hst, hse, hdepth, f0, hf0, hdf0⟩
    · simp at h1
    · obtain ⟨f, hdf, hfs, hfb, _⟩ := scanLoop_dirs_shape _ _ _ _ _ _ _ _ _ hscan d hd
      have hff : f0 = f := by
        have := hdf0.symm.trans hdf
        simpa using this
      subst hff
      rw [hdf] at hde
      have hsf : f0 = s := by
        rcases nestedEntry_cases h.platform T f0 _ hfs hfb hde with he | ⟨more, hm⟩
        · simp only [str_slash, List.append_assoc, List.singleton_append] at he
          exact (append_cons_unique slash s f0 _ _ hss hfs he).1.symm
        · simp only [str_slash, List.append_assoc, List.singleton_append,
            List.cons_append] at hm
          exact (append_cons_unique slash f0 s _ _ hfs hss hm).1
      subst hsf
      exact ⟨hrec, t, ht, hst, hse,
        prefix_of_folderNameOf T _ f0 (hbelow t ht).1 (hbelow t ht).2 hdepth hf0⟩

/-! ## The depth bound, the flags and input resolution -/

variable {σ : Type}

theorem nestedLoop_mono (gen gen1 : σ → JSString → Outcome (Generated σ)) (pf : Platform)
    (T : JSString) (hgen : ∀ s d r, gen s d = .resolved r → gen1 s d = .resolved r)
    (ds : List JSString) (st : σ) (files : List JSVal) (out : σ × List JSVal)
    (hn : nestedLoop gen pf T ds st files = .resolved out) :
    nestedLoop gen1 pf T ds st files = .resolved out := by
  induction ds generalizing st files with
  | nil => simpa [nestedLoop] using hn
  | cons d ds ih =>
    simp only [nestedLoop] at hn ⊢
    cases hg : gen st d with
    | resolved r =>
      rw [hgen st d r hg]
      rw [hg] at hn
      exact ih _ _ hn
    | rejected e => simp [hg] at hn
    | pending => simp [hg] at hn
    | cutOff => simp [hg] at hn

/-- A call that resolves within some depth bound resolves to the same result within any
larger one. -/
theorem generate_fuel_mono (h : Host σ) (cfg : Config) (fuel : Nat) (st : σ) (T : JSString)
    (recursive : Bool) (a : Option JSString) (r : Generated σ)
    (hr : generate h cfg fuel st T recursive a = .resolved r) :
    generate h cfg (fuel + 1) st T recursive a = .resolved r := by
  induction fuel generalizing st T recursive a r with
  | zero => simp [generate] at hr
  | succ n ih =>
    rw [generate_succ] at hr ⊢
    generalize scanLoop h cfg st T (split T (str "/")) ((split T (str "/")).getLastD [])
        recursive (h.findFiles st (searchPattern h.platform
          (appendedDirNameOf h.platform a ((split T (str "/")).getLastD [])))) ⟨[], []⟩ = sc
      at hr ⊢
    cases sc with
    | none => exact absurd hr (by simp)
    | some scan =>
      simp only at hr ⊢
      by_cases hc : (recursive && decide (scan.dirs.length > 0)) = true
      · rw [if_pos hc] at hr ⊢
        cases hn : nestedLoop (fun s d => generate h cfg n s d true
            (some (appendedDirNameOf h.platform a ((split T (str "/")).getLastD []))))
            h.platform T scan.dirs st scan.files with
        | resolved out =>
          rw [hn] at hr
          rw [nestedLoop_mono _ _ _ _ (fun s d r1 hr1 => ih s d true _ r1 hr1) _ _ _ _ hn]
          exact hr
        | rejected e =>
          rw [hn] at hr
          exact absurd hr (by simp)
        | pending =>
          rw [hn] at hr
          exact absurd hr (by simp)
        | cutOff =>
          rw [hn] at hr
          exact absurd hr (by simp)
      · rw [if_neg hc] at hr ⊢
        exact hr

/-- A dismissed folder dialog, on any host: `validateAndGenerate` rejects with a
`TypeError` before `generate` is called, and the command shows the error notice. -/
theorem validateAndGenerate_of_dismissed (h : Host σ) (cfg : Config) (fuel : Nat) (st : σ)
    (recursive : Bool) (hd : h.showOpenDialog st = none) :
    validateAndGenerate h cfg fuel st none recursive = .rejected .typeError ∧
      generateCurrent h cfg fuel st none =
        .resolved (.error (str "GDBF: Error on generating the file") .typeError) := by
  have hv : ∀ rec : Bool, validateAndGenerate h cfg fuel st none rec = .rejected .typeError := by
    intro rec
    simp [validateAndGenerate, resolveTarget, getFolderNameFromInput, hd, toPosixPathOf, bind,
      Except.bind]
  exact ⟨hv recursive, by simp [generateCurrent, hv false]⟩

theorem nestedLoop_rejected (gen : σ → JSString → Outcome (Generated σ)) (pf : Platform)
    (T : JSString) (ds : List JSString) (st : σ) (files : List JSVal) (e : Failure)
    (hn : nestedLoop gen pf T ds st files = .rejected e) :
    ∃ s d, gen s d = .rejected e := by
  induction ds generalizing st files with
  | nil => simp [nestedLoop] at hn
  | cons d ds ih =>
    simp only [nestedLoop] at hn
    cases hg : gen st d with
    | resolved r =>
      rw [hg] at hn
      exact ih _ _ hn
    | rejected e1 =>
      rw [hg] at hn
      simp only [Outcome.rejected.injEq] at hn
      exact ⟨st, d, by rw [hg, hn]⟩
    | pending => simp [hg] at hn
    | cutOff => simp [hg] at hn

/-- The only error a call of `generate` rejects with is the exception of `lstatSync`. -/
theorem generate_rejected (h : Host σ) (cfg : Config) (fuel : Nat) (st : σ) (T : JSString)
    (recursive : Bool) (a : Option JSString) (e : Failure)
    (hr : generate h cfg fuel st T recursive a = .rejected e) : e = .host := by
  induction fuel generalizing st T recursive a with
  | zero => simp [generate] at hr
  | succ n ih =>
    rw [generate_succ] at hr
    generalize scanLoop h cfg st T (split T (str "/")) ((split T (str "/")).getLastD [])
        recursive (h.findFiles st (searchPattern h.platform
          (appendedDirNameOf h.platform a ((split T (str "/")).getLastD [])))) ⟨[], []⟩ = sc
      at hr
    cases sc with
    | none =>
      simp only [Outcome.rejected.injEq] at hr
      exact hr.symm
    | some scan =>
      simp only at hr
      by_cases hc : (recursive && decide (scan.dirs.length > 0)) = true
      · rw [if_pos hc] at hr
        cases hn : nestedLoop (fun s d => generate h cfg n s d true
            (some (appendedDirNameOf h.platform a ((split T (str "/")).getLastD []))))
            h.platform T scan.dirs st scan.files with
        | resolved out =>
          rw [hn] at hr
          simp only at hr
          split at hr <;> exact absurd hr (by simp)
        | rejected e1 =>
          rw [hn] at hr
          simp only [Outcome.rejected.injEq] at hr
          subst hr
          obtain ⟨s, d, hsd⟩ := nestedLoop_rejected _ _ _ _ _ _ _ hn
          exact ih _ _ _ _ hsd
        | pending =>
          rw [hn] at hr
          exact absurd hr (by simp)
        | cutOff =>
          rw [hn] at hr
          exact absurd hr (by simp)
      · rw [if_neg hc] at hr
        simp only at hr
        split at hr <;> exact absurd hr (by simp)

/-- When the selection is a directory, the out-of-workspace error is raised exactly when
the workspace folder's path does not occur in the target's path as a substring. -/
theorem validateAndGenerate_outside_iff (h : Host σ) (cfg : Config) (fuel : Nat) (st : σ)
    (u : Uri) (recursive : Bool) (folder : JSString) (rest : List JSString)
    (hdir : h.lstatSync st (toPosixPath h.platform u.fsPath) = some .directory)
    (hw : h.workspaceFolders st = folder :: rest) :
    validateAndGenerate h cfg fuel st (some u) recursive =
        .rejected (.error (str "Select a folder from the workspace")) ↔
      includes (toPosixPath h.platform u.fsPath) (toPosixPath h.platform folder) = false := by
  have hv : validateAndGenerate h cfg fuel st (some u) recursive =
      if !includes (toPosixPath h.platform u.fsPath) (toPosixPath h.platform folder) then
        .rejected (.error (str "Select a folder from the workspace"))
      else generate h cfg fuel st (toPosixPath h.platform u.fsPath) recursive none := by
    simp [validateAndGenerate, resolveTarget, requireDirectory, hdir, Stat.isDirectory, hw,
      bind, Except.bind, pure, Except.pure]
  rw [hv]
  by_cases hi : includes (toPosixPath h.platform u.fsPath) (toPosixPath h.platform folder) = true
  · simp only [hi, Bool.not_true, Bool.false_eq_true, if_false]
    constructor
    · intro hg
      have := generate_rejected _ _ _ _ _ _ _ _ hg
      exact absurd this (by simp)
    · intro hf
      exact absurd hf (by simp)
  · simp [hi]

theorem endsWith_iff (s t : JSString) : endsWith s t = true ↔ t <:+ s := by
  unfold endsWith
  exact List.isSuffixOf_iff_suffix

theorem endsWith_g_of_freezed (p : JSString) (h : endsWith p (str ".freezed.dart") = true) :
    endsWith p (str ".g.dart") = false := by
  cases hg : endsWith p (str ".g.dart") with
  | false => rfl
  | true =>
    have h1 := (endsWith_iff _ _).1 h
    have h2 := (endsWith_iff _ _).1 hg
    have h3 : str ".g.dart" <:+ str ".freezed.dart" :=
      List.suffix_of_suffix_length_le h2 h1 (by decide)
    exact absurd h3 (by decide)

/-- The two flags act independently of each other and of the rest of the filter: a path
is accepted under a configuration exactly when it is accepted with both flags off and
is not of a kind whose flag is on. -/
theorem shouldExport_flags (cfg : Config) (p d : JSString) :
    shouldExport cfg p d =
      (shouldExport ⟨false, false⟩ p d &&
        !(cfg.excludeFreezed && endsWith p (str ".freezed.dart")) &&
        !(cfg.excludeGenerated && endsWith p (str ".g.dart"))) := by
  unfold shouldExport getConfig
  by_cases h1 : endsWith p (str ".dart") = true <;>
    by_cases h2 : endsWith p (d ++ str ".dart") = true <;>
    by_cases h3 : endsWith p (str ".freezed.dart") = true <;>
    by_cases h4 : endsWith p (str ".g.dart") = true <;>
    simp [h1, h2, h3, h4]
  all_goals
    have := endsWith_g_of_freezed p h3
    simp [h4] at this

theorem suffix_baseName_iff (p t : JSString) (ht : slash ∉ t) :
    t <:+ baseName p ↔ t <:+ p := by
  constructor
  · intro h
    exact h.trans (baseName_suffix p)
  · intro h
    by_cases hp : slash ∈ p
    · obtain ⟨pre, post, hpp, hpost⟩ := exists_last_split slash p hp
      rw [hpp, baseName_append_slash pre post hpost]
      obtain ⟨u, hu⟩ := h
      rw [hpp] at hu
      rcases List.append_eq_append_iff.1 hu with ⟨a, _, hb⟩ | ⟨c, _, hd⟩
      · exact absurd (by rw [hb]; simp) ht
      · cases c with
        | nil =>
          simp only [List.nil_append] at hd
          exact absurd (by rw [← hd]; simp) ht
        | cons x xs =>
          simp only [List.cons_append, List.cons.injEq] at hd
          exact ⟨xs, hd.2.symm⟩
    · rw [baseName_of_not_mem p hp]
      exact h



theorem endsWith_baseName (p t : JSString) (ht : slash ∉ t) :
    endsWith (baseName p) t = endsWith p t := by
  have h := suffix_baseName_iff p t ht
  rw [← endsWith_iff, ← endsWith_iff] at h
  cases h1 : endsWith (baseName p) t <;> cases h2 : endsWith p t <;> simp_all

theorem scanEntry_flags (h : Host σ) (cfg : Config) (st : σ) (splitDir : List JSString)
    (dirName t : JSString) :
    scanEntry h cfg st splitDir dirName t =
      (scanEntry h ⟨false, false⟩ st splitDir dirName t).filter (keptBy cfg) := by
  unfold scanEntry
  rw [shouldExport_flags cfg]
  by_cases h1 : h.lstatSync st (toPosixPath h.platform t) = some .file <;>
    by_cases h2 : shouldExport ⟨false, false⟩ (toPosixPath h.platform t) dirName = true <;>
    by_cases h3 : ((split (toPosixPath h.platform t) (str "/")).length : Int) -
        (splitDir.length : Int) = 1 <;>
    simp [h1, h2, h3, Option.filter, keptBy, toStringVal,
      endsWith_baseName _ _ (by decide : slash ∉ str ".freezed.dart"),
      endsWith_baseName _ _ (by decide : slash ∉ str ".g.dart")]

theorem scanLoop_stat (h : Host σ) (cfg : Config) (st : σ) (T : JSString)
    (splitDir : List JSString) (dirName : JSString) (recursive : Bool)
    (ts : List JSString) (acc acc1 : Scan)
    (hs : scanLoop h cfg st T splitDir dirName recursive ts acc = some acc1) :
    ∀ t ∈ ts, (h.lstatSync st (toPosixPath h.platform t)).isSome = true := by
  induction ts generalizing acc with
  | nil => intro t ht; simp at ht
  | cons u us ih =>
    simp only [scanLoop] at hs
    cases hstep : scanStep h cfg st T splitDir dirName recursive acc u with
    | none => rw [hstep] at hs; exact absurd hs (by simp)
    | some acc2 =>
      rw [hstep] at hs
      intro t ht
      rcases List.mem_cons.1 ht with rfl | ht
      · unfold scanStep at hstep
        cases hl : h.lstatSync st (toPosixPath h.platform t) with
        | none => simp [hl] at hstep
        | some s => rfl
      · exact ih _ hs t ht

/-- The entries of a non-recursive run under any configuration are those of the run with
both flags off, on the same host state, minus the `.freezed.dart` entries when
`excludeFreezed` is on and minus the `.g.dart` entries when `excludeGenerated` is on. -/
theorem generate_flags (h : Host σ) (cfg : Config) (fuel fuel0 : Nat) (st : σ) (T : JSString)
    (a : Option JSString) (r r0 : Generated σ)
    (hr0 : generate h ⟨false, false⟩ fuel0 st T false a = .resolved r0)
    (hr : generate h cfg fuel st T false a = .resolved r) :
    r.files = r0.files.filter (keptBy cfg) := by
  obtain ⟨_, scan0, _, _, hscan0, hn0, _⟩ := generate_some _ _ _ _ _ _ _ _ hr0
  obtain ⟨_, scan, _, _, hscan, hn, _⟩ := generate_some _ _ _ _ _ _ _ _ hr
  simp only [Bool.false_and, Bool.false_eq_true, if_false, Outcome.resolved.injEq,
    Prod.mk.injEq] at hn0 hn
  have hstat := scanLoop_stat _ _ _ _ _ _ _ _ _ _ hscan
  rw [scanLoop_eq _ _ _ _ _ _ _ _ _ hstat] at hscan hscan0
  simp only [Option.some.injEq] at hscan hscan0
  rw [← hn.2, ← hn0.2, ← hscan, ← hscan0]
  simp only [List.nil_append]
  rw [List.filter_filterMap]
  apply List.filterMap_congr
  intro t _
  rw [scanEntry_flags]

/-! ## Claims about the eligibility filter and the path conversions -/

/-- C1: in directory `lib`, the file `/w/lib/mylib.dart` ends in `.dart`, its base name
`mylib.dart` differs from `lib.dart`, it is neither a `.freezed.dart` nor a `.g.dart`
file, and yet `shouldExport` rejects it with both flags off: the own-barrel test is a
suffix test on the whole path. -/
theorem shouldExport_rejects_suffix_of_dirName :
    shouldExport ⟨false, false⟩ (str "/w/lib/mylib.dart") (str "lib") = false ∧
      endsWith (str "/w/lib/mylib.dart") (str ".dart") = true ∧
      baseName (str "/w/lib/mylib.dart") = str "mylib.dart" ∧
      baseName (str "/w/lib/mylib.dart") ≠ str "lib" ++ str ".dart" ∧
      endsWith (str "/w/lib/mylib.dart") (str ".freezed.dart") = false ∧
      endsWith (str "/w/lib/mylib.dart") (str ".g.dart") = false := by
  decide

/-- C8, as stated, fails: on Windows the native path `C:\a/b` comes back as `C:\a\b`. -/
theorem roundTrip_fails_on_forward_slash :
    toPlatformSpecificPath .win32 (toPosixPath .win32 (str "C:\\a/b")) = str "C:\\a\\b" ∧
      toPlatformSpecificPath .win32 (toPosixPath .win32 (str "C:\\a/b")) ≠ str "C:\\a/b" := by
  decide

/-- C8, amended: for both separators, a native path that contains no `/` unless `/` is the
platform separator is returned unchanged by `toPlatformSpecificPath ∘ toPosixPath`. -/
theorem toPlatformSpecificPath_toPosixPath (pf : Platform) (p : JSString)
    (h : pf = .win32 → slash ∉ p) :
    toPlatformSpecificPath pf (toPosixPath pf p) = p := by
  cases pf
  · simp [toPosixPath_posix, toPlatformSpecificPath_posix]
  · have hs := h rfl
    simp only [toPosixPath_win32, toPlatformSpecificPath_win32, replaceUnit, List.map_map]
    conv_rhs => rw [← List.map_id p]
    apply List.map_congr_left
    intro x hx
    have hne : x ≠ slash := fun e => hs (e ▸ hx)
    by_cases hb : x = backslash
    · simp [hb]
    · simp [hb, hne]

/-- The amended round trip at the Windows path `C:\a\b`. -/
theorem toPlatformSpecificPath_toPosixPath_witness :
    (Platform.win32 = .win32 → slash ∉ str "C:\\a\\b") ∧
      toPlatformSpecificPath .win32 (toPosixPath .win32 (str "C:\\a\\b")) = str "C:\\a\\b" :=
  ⟨by decide, toPlatformSpecificPath_toPosixPath .win32 (str "C:\\a\\b") (by decide)⟩

/-! ## Claims about `generate` and the commands on concrete workspaces -/

/-- The run of C2 on `/w/root`: the hypotheses hold there and the body is the two sorted
lines. -/
theorem generate_exports_sorted_lines_witness :
    (toPosixPath memHost.platform (str "/w/root") = str "/w/root" ∧
      generate memHost ⟨false, false⟩ 2 compositionFS (str "/w/root") true none =
        .resolved compositionResult) ∧
    ∃ (entries sorted : List JSString) (st1 : FileSystem),
      compositionResult.files = entries.map some ∧
      sorted.Perm entries ∧
      sorted.Pairwise (fun x y => jsLt y x = false) ∧
      compositionResult.exports = (sorted.map exportLine).flatten ∧
      (entries = [] → compositionResult.exports = []) ∧
      memHost.writeFile st1 (toPlatformSpecificPath memHost.platform (barrelFileOf (str "/w/root")))
        compositionResult.exports = some compositionResult.state :=
  ⟨⟨by decide, by decide⟩,
    generate_exports_sorted_lines memHost ⟨false, false⟩ 2 compositionFS (str "/w/root") true
      none compositionResult (by decide) (by decide)⟩

/-- The run of C3 on `/w/root` in a workspace where `/w/root/root.dart` and
`/w/root/sub/sub.dart` already exist from an earlier run. -/
theorem generate_never_exports_itself_witness :
    (compositionResult.state.lstat (str "/w/root/root.dart") = some .file ∧
      generate memHost ⟨false, false⟩ 2 compositionResult.state (str "/w/root") true none =
        .resolved compositionResult) ∧
    ((∀ v ∈ compositionResult.files,
        toStringVal v ≠ (split (str "/w/root") (str "/")).getLastD [] ++ str ".dart") ∧
      compositionResult.exports =
        composeExports (arraySort compareFn compositionResult.files)) :=
  ⟨⟨by decide, by decide⟩,
    generate_never_exports_itself memHost ⟨false, false⟩ 2 compositionResult.state
      (str "/w/root") true none compositionResult (by decide)⟩

/-- C4, as stated, fails: `/w/root/s` holds only its own barrel file `s.dart`, which is
not eligible in `s`, and the recursive run on `/w/root` still references `s/s.dart`. -/
theorem stale_barrel_is_referenced :
    (generate memHost ⟨false, false⟩ 2 staleBarrelFS (str "/w/root") true none).value?.map
        (fun r => (r.files, r.exports)) =
      some ([some (str "x.dart"), some (str "s/s.dart")],
        str "export 's/s.dart';\nexport 'x.dart';\n") ∧
    (staleBarrelFS.files.map Prod.fst).filter (fun p => (str "/w/root/s/").isPrefixOf p) =
      [str "/w/root/s/s.dart"] ∧
    shouldExport ⟨false, false⟩ (str "/w/root/s/s.dart") (str "s") = false := by
  decide

/-- The run of the amended C4 on `/w/root`: both enumerated files lie below `/w/root`,
and the reference `sub/sub.dart` has `/w/root/sub/y.dart` as its source. -/
theorem nested_reference_has_source_witness :
    (generate memHost ⟨false, false⟩ 2 compositionFS (str "/w/root") true none =
        .resolved compositionResult ∧
      memHost.findFiles compositionFS (searchPattern memHost.platform
          (appendedDirNameOf memHost.platform none
            ((split (str "/w/root") (str "/")).getLastD []))) =
        [str "/w/root/x.dart", str "/w/root/sub/y.dart"] ∧
      slash ∉ str "sub" ∧
      some (str "sub" ++ str "/" ++ str "sub" ++ str ".dart") ∈ compositionResult.files) ∧
    (true = true ∧
      ∃ t ∈ memHost.findFiles compositionFS (searchPattern memHost.platform
          (appendedDirNameOf memHost.platform none
            ((split (str "/w/root") (str "/")).getLastD []))),
        memHost.lstatSync compositionFS (toPosixPath memHost.platform t) = some .file ∧
        shouldExport ⟨false, false⟩ (toPosixPath memHost.platform t)
          ((split (str "/w/root") (str "/")).getLastD []) = true ∧
        (str "/w/root" ++ str "/" ++ str "sub" ++ str "/") <+:
          toPosixPath memHost.platform t) :=
  ⟨⟨by decide, by decide, by decide, by decide⟩,
    nested_reference_has_source memHost ⟨false, false⟩ 2 compositionFS (str "/w/root") true
      none compositionResult (by decide) (by decide) (str "sub") (by decide) (by decide)⟩

/-- C5: with `/w/a/lib/x.dart` and `/w/b/lib/z.dart` in the workspace, the run on
`/w/a/lib` exports `z.dart`, a file whose directory is `/w/b/lib`. -/
theorem generate_exports_file_of_same_named_directory :
    (generate memHost ⟨false, false⟩ 1 sameLeafFS (str "/w/a/lib") false none).value?.map
        (fun r => (r.files, r.exports)) =
      some ([some (str "x.dart"), some (str "z.dart")],
        str "export 'x.dart';\nexport 'z.dart';\n") ∧
    sameLeafFS.findFiles (searchPattern .posix (str "lib")) =
      [str "/w/a/lib/x.dart", str "/w/b/lib/z.dart"] ∧
    parentOf (str "/w/b/lib/z.dart") = str "/w/b/lib" ∧
    str "/w/b/lib" ≠ str "/w/a/lib" := by
  decide

/-- C6: `/w/lib` holds the eligible file `x.dart` and one subdirectory `src` holding
`lib.dart`, which is eligible in `src`.  The own-barrel test of `shouldExport`, applied
with the name `lib`, rejects `/w/lib/src/lib.dart`, which is not the barrel file
`/w/lib/lib.dart`; `src` is never discovered, the recursive run on `/w/lib` writes no
`/w/lib/src/src.dart`, and the only entry of `/w/lib/lib.dart` is `x.dart`. -/
theorem shadowed_subdirectory_is_not_generated :
    shouldExport ⟨false, false⟩ (str "/w/lib/src/lib.dart") (str "src") = true ∧
    shouldExport ⟨false, false⟩ (str "/w/lib/x.dart") (str "lib") = true ∧
    shouldExport ⟨false, false⟩ (str "/w/lib/src/lib.dart") (str "lib") = false ∧
    str "/w/lib/src/lib.dart" ≠ barrelFileOf (str "/w/lib") ∧
    (generate memHost ⟨false, false⟩ 2 shadowedFS (str "/w/lib") true none).value?.map
        (fun r => (r.path, r.files)) =
      some (str "/w/lib/lib.dart", [some (str "x.dart")]) ∧
    (generate memHost ⟨false, false⟩ 2 shadowedFS (str "/w/lib") true none).value?.map
        (fun r => r.state.files) =
      some [(str "/w/lib/x.dart", []), (str "/w/lib/src/lib.dart", []),
        (str "/w/lib/lib.dart", str "export 'x.dart';\n")] := by
  decide

/-- Why the composition theorem asks that the root's path does not recur behind itself:
in `/a/b/a/bx.dart` the text after `/a/b` starts with `/a/b` again, `split` cuts there,
no folder name is extracted, and the subdirectory `a` is neither generated nor
referenced although `bx.dart` passes `shouldExport` against both directory names. -/
theorem recurring_root_hides_subdirectory :
    shouldExport ⟨false, false⟩ (str "/a/b/a/bx.dart") (str "b") = true ∧
    shouldExport ⟨false, false⟩ (str "/a/b/a/bx.dart") (str "a") = true ∧
    split (str "/a/b/a/bx.dart") (str "/a/b") = [str "", str "", str "x.dart"] ∧
    folderNameOf (str "/a/b") (str "/a/b/a/bx.dart") = none ∧
    (generate memHost ⟨false, false⟩ 2 recurringFS (str "/a/b") true none).value?.map
        (fun r => (r.path, r.files)) =
      some (str "/a/b/b.dart", [some (str "x.dart")]) := by
  decide

/-- A failed write: the callback of `writeFile` throws instead of resolving, the promise
of `generate` never settles, and the command shows no notice at all. -/
theorem failed_write_never_settles :
    FileSystem.write blockedFS (str "/w/root/root.dart") (str "export 'x.dart';\n") = none ∧
    generate memHost ⟨false, false⟩ 1 blockedFS (str "/w/root") false none = .pending ∧
    validateAndGenerate memHost ⟨false, false⟩ 1 blockedFS
      (some ⟨str "/w/root", str "/w/root"⟩) false = .pending ∧
    generateCurrent memHost ⟨false, false⟩ 1 blockedFS
      (some ⟨str "/w/root", str "/w/root"⟩) = .pending := by
  decide

/-- C7: with the workspace `/home/u/proj`, the directories `/home/u/proj2` and
`/x/home/u/proj` are neither the root nor below it, and `validateAndGenerate` does not
reject them: it runs `generate` and writes a barrel file in each. -/
theorem validateAndGenerate_accepts_outside_directories :
    (validateAndGenerate memHost ⟨false, false⟩ 1 outsideFS
        (some ⟨str "/home/u/proj2", str "/home/u/proj2"⟩) false).value?.map
        (fun r => (r.path, r.state.files)) =
      some (str "/home/u/proj2/proj2.dart",
        [(str "/home/u/proj/lib/a.dart", []), (str "/home/u/proj2/proj2.dart", [])]) ∧
    (validateAndGenerate memHost ⟨false, false⟩ 1 outsideFS
        (some ⟨str "/x/home/u/proj", str "/x/home/u/proj"⟩) false).value?.map
        (fun r => (r.path, r.state.files)) =
      some (str "/x/home/u/proj/proj.dart",
        [(str "/home/u/proj/lib/a.dart", []), (str "/x/home/u/proj/proj.dart", [])]) ∧
    outsideFS.workspaceFolders = [str "/home/u/proj"] ∧
    relativeTo (str "/home/u/proj") (str "/home/u/proj2") = none ∧
    relativeTo (str "/home/u/proj") (str "/x/home/u/proj") = none ∧
    str "/home/u/proj2" ≠ str "/home/u/proj" ∧ str "/x/home/u/proj" ≠ str "/home/u/proj" := by
  decide

/-- C9: in `/w/models`, with both flags off, the non-recursive run does not include
`user_models.dart`, a `.dart` file whose name is not `models.dart`. -/
theorem generate_drops_file_ending_in_dirName :
    (generate memHost ⟨false, false⟩ 1 modelsFS (str "/w/models") false none).value?.map
        (fun r => (r.files, r.exports)) =
      some ([some (str "user.dart")], str "export 'user.dart';\n") ∧
    modelsFS.findFiles (searchPattern .posix (str "models")) =
      [str "/w/models/user.dart", str "/w/models/user_models.dart"] ∧
    endsWith (str "/w/models/user_models.dart") (str ".dart") = true ∧
    baseName (str "/w/models/user_models.dart") ≠ str "models.dart" := by
  decide

/-- C10: without a selection and with the folder dialog dismissed, `validateAndGenerate`
fails with a `TypeError` (`toPosixPath` is applied to `undefined`) and `generateCurrent`
shows the error notice; the same holds for the nested command. -/
theorem cancelled_dialog_shows_error :
    compositionFS.dialog = none ∧
    getFolderNameFromInput memHost compositionFS = none ∧
    validateAndGenerate memHost ⟨false, false⟩ 2 compositionFS none false =
      .rejected .typeError ∧
    generateCurrent memHost ⟨false, false⟩ 2 compositionFS none =
      .resolved (.error (str "GDBF: Error on generating the file") .typeError) ∧
    generateCurrentAndNested memHost ⟨false, false⟩ 2 compositionFS none =
      .resolved (.error (str "GDBF: Error on generating the file") .typeError) := by
  decide

/-- The composition theorem on the workspace holding `/w/root/x.dart` and
`/w/root/sub/y.dart`: the hypotheses hold there, and the run writes `/w/root/sub/sub.dart` with
`export 'y.dart';` and `/w/root/root.dart` with the two sorted lines, and resolves to
`/w/root/root.dart`. -/
theorem generate_root_with_subdirectory_witness :
    (generate memHost ⟨false, false⟩ 2 compositionFS (str "/w/root") true none =
        .resolved compositionResult ∧
      compositionResult.state.read (str "/w/root/sub/sub.dart") =
        some (str "export 'y.dart';\n") ∧
      compositionResult.state.read (str "/w/root/root.dart") =
        some (str "export 'sub/sub.dart';\nexport 'x.dart';\n") ∧
      compositionResult.path = str "/w/root/root.dart") ∧
    ∃ entries : List JSVal,
      entries.Perm (([str "x.dart"] ++ [str "sub" ++ str "/" ++ str "sub" ++ str ".dart"]).map
        some) ∧
      generate memHost ⟨false, false⟩ (0 + 2) compositionFS (str "/w/root") true none =
        match memHost.writeFile compositionFS
          (toPlatformSpecificPath memHost.platform
            (str "/w/root" ++ str "/" ++ str "sub" ++ str "/" ++ str "sub" ++ str ".dart"))
          ((stableSort compareFn [str "y.dart"]).map exportLine).flatten with
        | none => .pending
        | some st1 =>
          match memHost.writeFile st1
            (toPlatformSpecificPath memHost.platform (barrelFileOf (str "/w/root")))
            ((stableSort compareFn
              ([str "x.dart"] ++ [str "sub" ++ str "/" ++ str "sub" ++ str ".dart"])).map
              exportLine).flatten with
          | none => .pending
          | some st2 =>
            .resolved ⟨st2,
              toPlatformSpecificPath memHost.platform (barrelFileOf (str "/w/root")), entries,
              ((stableSort compareFn
                ([str "x.dart"] ++ [str "sub" ++ str "/" ++ str "sub" ++ str ".dart"])).map
                exportLine).flatten⟩ :=
  ⟨by decide,
    generate_root_with_subdirectory memHost ⟨false, false⟩ 0 compositionFS (str "/w/root")
      (str "sub") [str "x.dart"] [str "y.dart"] (by decide) (by decide) (by decide)
      (by decide) (by decide) (by decide) (by decide) (by decide)⟩

end DartBarrel
